import Mathlib

/-!
# Verification of the routine-builder client (src/script.js)

Strings are modelled as `List Char`.  Each definition below transcribes one
JavaScript function or expression of `src/script.js`; the JS regular
expressions are unfolded into explicit character scans with the same
(greedy, leftmost) semantics.
-/

/-- Convert a Lean string literal to the `List Char` model. -/
def chars (s : String) : List Char := s.toList

/-- The character class of the JS `\s` regex escape (also the class used by
`String.prototype.trim`): ASCII whitespace, NBSP, the Unicode space
separators, line/paragraph separators and the BOM. -/
def wsChars : List Char :=
  ['\t', '\n', '\x0b', '\x0c', '\r', ' ', ' ', ' ',
   ' ', ' ', ' ', ' ', ' ', ' ', ' ',
   ' ', ' ', ' ', ' ', ' ', ' ', ' ',
   ' ', '　', '﻿']

/-- JS whitespace test (`\s`). -/
def isWS (c : Char) : Bool := wsChars.contains c

/-- `text.replace(/\r\n/g, "\n")`: global left-to-right replacement of CRLF
pairs by LF. -/
def normalizeCRLF : List Char → List Char
  | '\r' :: '\n' :: rest => '\n' :: normalizeCRLF rest
  | c :: rest => c :: normalizeCRLF rest
  | [] => []

/-- `s.trim()`: remove JS whitespace from both ends. -/
def trimStr (s : List Char) : List Char :=
  ((s.dropWhile isWS).reverse.dropWhile isWS).reverse

/-- `s.split("\n")` (JS semantics: `"" ↦ [""]`, trailing separator produces a
trailing empty piece). -/
def splitOnNL : List Char → List (List Char)
  | [] => [[]]
  | '\n' :: rest => [] :: splitOnNL rest
  | c :: rest =>
    match splitOnNL rest with
    | p :: ps => (c :: p) :: ps
    | [] => [[c]]

/-- Greedy match of the regex tail `\s*\n` at the start of `s` (the part of
the separator `\n\s*\n` after its first `\n`): consume whitespace up to and
including the last `'\n'` of the maximal whitespace run, returning the
remainder; `none` when the run contains no `'\n'`. -/
def matchWsNl (s : List Char) : Option (List Char) :=
  let w := s.takeWhile isWS
  if '\n' ∈ w then
    some ((w.reverse.takeWhile (fun c => c ≠ '\n')).reverse ++ s.dropWhile isWS)
  else none

theorem matchWsNl_length_le {s r : List Char} (h : matchWsNl s = some r) :
    r.length ≤ s.length := by
  unfold matchWsNl at h
  by_cases hw : '\n' ∈ s.takeWhile isWS
  · simp only [hw, if_true, Option.some.injEq] at h
    subst h
    have h1 : ((s.takeWhile isWS).reverse.takeWhile (fun c => c ≠ '\n')).length
        ≤ (s.takeWhile isWS).length := by
      calc ((s.takeWhile isWS).reverse.takeWhile (fun c => c ≠ '\n')).length
          ≤ (s.takeWhile isWS).reverse.length := (List.takeWhile_sublist _).length_le
        _ = (s.takeWhile isWS).length := List.length_reverse _
    have h2 : (s.takeWhile isWS).length + (s.dropWhile isWS).length = s.length := by
      rw [← List.length_append, List.takeWhile_append_dropWhile]
    simp only [List.length_append, List.length_reverse]
    omega
  · simp [hw] at h

/-- One scanning pass of `normalized.split(/\n\s*\n/)`: `cur` holds the
(reversed) characters of the piece being built; on each `'\n'` we test
whether the separator regex matches there. -/
def paraScan (cur : List Char) (s : List Char) : List (List Char) :=
  match s with
  | [] => [cur.reverse]
  | '\n' :: rest =>
    (match h : matchWsNl rest with
     | some rest' => cur.reverse :: paraScan [] rest'
     | none => paraScan ('\n' :: cur) rest)
  | c :: rest => paraScan (c :: cur) rest
termination_by s.length
decreasing_by
  · simpa using Nat.lt_succ_of_le (matchWsNl_length_le h)
  · simp
  · simp

/-- `normalized.split(/\n\s*\n/)`. -/
def splitParas (s : List Char) : List (List Char) := paraScan [] s

/-- `para.split("\n").map(l => l.trim()).filter(Boolean)`. -/
def linesOf (p : List Char) : List (List Char) :=
  ((splitOnNL p).map trimStr).filter (fun l => !l.isEmpty)

/-- The paragraph units of `parseAssistantTextToNodes`:
`text.replace(/\r\n/g,"\n").trim().split(/\n\s*\n/).map(p => p.trim()).filter(Boolean)`. -/
def paragraphsOf (text : List Char) : List (List Char) :=
  ((splitParas (trimStr (normalizeCRLF text))).map trimStr).filter (fun p => !p.isEmpty)

/-- `lines.join(sep)` for a one-character separator. -/
def joinSep (sep : Char) : List (List Char) → List Char
  | [] => []
  | [l] => l
  | l :: ls => l ++ sep :: joinSep sep ls

/-- `/^\s*\d+[\.\)]\s+/.test(line)`. -/
def isNumberedLine (l : List Char) : Bool :=
  let a := l.dropWhile isWS
  let ds := a.takeWhile Char.isDigit
  match a.dropWhile Char.isDigit with
  | c :: rest =>
    !ds.isEmpty && (c = '.' || c = ')') &&
      (match rest with
       | d :: _ => isWS d
       | [] => false)
  | [] => false

/-- `line.replace(/^\s*\d+[\.\)]\s+/, "").trim()` (the replace strips the
greedy match when the pattern matches, otherwise leaves the line alone). -/
def stripNumbered (l : List Char) : List Char :=
  if isNumberedLine l then
    trimStr (((l.dropWhile isWS).dropWhile Char.isDigit).drop 1 |>.dropWhile isWS)
  else trimStr l

/-- `/^\s*[-*•]\s+/.test(line)`. -/
def isBulletLine (l : List Char) : Bool :=
  match l.dropWhile isWS with
  | c :: rest =>
    (c = '-' || c = '*' || c = '•') &&
      (match rest with
       | d :: _ => isWS d
       | [] => false)
  | [] => false

/-- `line.replace(/^\s*[-*•]\s+/, "").trim()`. -/
def stripBullet (l : List Char) : List Char :=
  if isBulletLine l then
    trimStr ((l.dropWhile isWS).drop 1 |>.dropWhile isWS)
  else trimStr l

/-- `/^\s*Step\s*\d+[:\.\)]\s*/i.test(line)`: note the whitespace between
`Step` and the digits is `\s*`, i.e. optional. -/
def isStepLine (l : List Char) : Bool :=
  match l.dropWhile isWS with
  | c1 :: c2 :: c3 :: c4 :: rest =>
    c1.toLower = 's' && c2.toLower = 't' && c3.toLower = 'e' && c4.toLower = 'p' &&
      (let b := rest.dropWhile isWS
       !(b.takeWhile Char.isDigit).isEmpty &&
         (match b.dropWhile Char.isDigit with
          | c :: _ => c = ':' || c = '.' || c = ')'
          | [] => false))
  | _ => false

/-- `line.replace(/^\s*Step\s*\d+[:\.\)]\s*/i, "").trim()`. -/
def stripStep (l : List Char) : List Char :=
  if isStepLine l then
    trimStr (((((l.dropWhile isWS).drop 4).dropWhile isWS).dropWhile
      Char.isDigit).drop 1 |>.dropWhile isWS)
  else trimStr l

/-- `/:\s*$/.test(line)`: some `':'` is followed only by whitespace. -/
def hasTrailingColonWS (l : List Char) : Bool :=
  match l.reverse.dropWhile isWS with
  | c :: _ => c = ':'
  | [] => false

/-- `line.replace(/:\s*$/, "")`: drop the final `':'` and the whitespace
after it (the leftmost match of the anchored pattern). -/
def stripTrailingColonWS (l : List Char) : List Char :=
  if hasTrailingColonWS l then ((l.reverse.dropWhile isWS).drop 1).reverse
  else l

/-- The structured output blocks built by `parseAssistantTextToNodes`
(`h4`, `ol`, `ul`, `p` DOM nodes, keeping only their text content). -/
inductive Block where
  | heading (text : List Char)
  | orderedList (items : List (List Char))
  | unorderedList (items : List (List Char))
  | paragraph (text : List Char)
deriving DecidableEq

/-- `last.textContent += " " + line` on the last item of the list under
construction; when no item exists the line is dropped (`if (last)`). -/
def appendToLast (acc : List (List Char)) (l : List Char) : List (List Char) :=
  match acc with
  | [] => []
  | [x] => [x ++ ' ' :: l]
  | x :: xs => x :: appendToLast xs l

/-- The `lines.forEach` loop of the three list branches: a line matching the
marker starts a new item with the marker stripped; any other line is a
continuation appended to the last item. -/
def buildItemsGo (isM : List Char → Bool) (stripM : List Char → List Char)
    (acc : List (List Char)) : List (List Char) → List (List Char)
  | [] => acc
  | l :: ls =>
    if isM l then buildItemsGo isM stripM (acc ++ [stripM l]) ls
    else buildItemsGo isM stripM (appendToLast acc l) ls

def buildItems (isM : List Char → Bool) (stripM : List Char → List Char)
    (lines : List (List Char)) : List (List Char) :=
  buildItemsGo isM stripM [] lines

/-- Classification of one paragraph unit after the heading rule has been
ruled out: numbered list, bullet list, step list, fallback paragraph. -/
def classifyUnit (lines : List (List Char)) : Block :=
  if 1 ≤ (lines.filter isNumberedLine).length ∧
      ¬1 ≤ (lines.filter isBulletLine).length then
    Block.orderedList (buildItems isNumberedLine stripNumbered lines)
  else if 1 ≤ (lines.filter isBulletLine).length ∧
      ¬1 ≤ (lines.filter isNumberedLine).length then
    Block.unorderedList (buildItems isBulletLine stripBullet lines)
  else if 2 ≤ (lines.filter isStepLine).length then
    Block.orderedList (buildItems isStepLine stripStep lines)
  else
    Block.paragraph (joinSep ' ' lines)


/-! ## Equation lemmas for the scanning functions -/

theorem splitOnNL_cons_nl (rest : List Char) :
    splitOnNL ('\n' :: rest) = [] :: splitOnNL rest := rfl

theorem splitOnNL_ne_nil (p : List Char) : splitOnNL p ≠ [] := by
  rw [splitOnNL.eq_def]
  split
  · simp
  · simp
  · split <;> simp

theorem splitOnNL_cons (c : Char) (rest : List Char) (h : ¬c = '\n') (q : List Char)
    (qs : List (List Char)) (hq : splitOnNL rest = q :: qs) :
    splitOnNL (c :: rest) = (c :: q) :: qs := by
  rw [splitOnNL.eq_def]
  split
  · simp_all
  · simp_all
  · rename_i c' rest' heq
    injection heq with h1 h2
    subst h1; subst h2
    rw [hq]

theorem paraScan_nil (cur : List Char) : paraScan cur [] = [cur.reverse] := by
  rw [paraScan]

theorem paraScan_nl_some (cur : List Char) {rest rest' : List Char}
    (h : matchWsNl rest = some rest') :
    paraScan cur ('\n' :: rest) = cur.reverse :: paraScan [] rest' := by
  rw [paraScan]
  split
  · rename_i r heq
    rw [h] at heq
    injection heq with h2
    rw [h2]
  · rename_i heq
    rw [h] at heq
    cases heq

theorem paraScan_nl_none (cur : List Char) {rest : List Char}
    (h : matchWsNl rest = none) :
    paraScan cur ('\n' :: rest) = paraScan ('\n' :: cur) rest := by
  rw [paraScan]
  split
  · rename_i r heq
    rw [h] at heq
    cases heq
  · rfl

theorem paraScan_cons (cur : List Char) {c : Char} (rest : List Char) (h : ¬c = '\n') :
    paraScan cur (c :: rest) = paraScan (c :: cur) rest := by
  rw [paraScan.eq_def]
  split
  · simp_all
  · simp_all
  · rename_i c' rest' heq
    injection heq with h1 h2
    subst h1; subst h2
    rfl

/-! ## Termination bounds for the recursive parser -/

theorem length_normalizeCRLF_le (s : List Char) :
    (normalizeCRLF s).length ≤ s.length := by
  induction s using normalizeCRLF.induct with
  | case1 rest ih => simpa [normalizeCRLF] using Nat.le_succ_of_le ih
  | case2 c rest h ih =>
    rw [show normalizeCRLF (c :: rest) = c :: normalizeCRLF rest by
      rw [normalizeCRLF.eq_def]; split <;> simp_all]
    simpa using ih
  | case3 => simp [normalizeCRLF]

theorem length_trimStr_le (s : List Char) : (trimStr s).length ≤ s.length := by
  unfold trimStr
  have h1 : (s.dropWhile isWS).length ≤ s.length :=
    (List.dropWhile_sublist _).length_le
  have h2 : ((s.dropWhile isWS).reverse.dropWhile isWS).length
      ≤ (s.dropWhile isWS).reverse.length :=
    (List.dropWhile_sublist _).length_le
  simp only [List.length_reverse] at *
  omega

theorem mem_paraScan_length_le (cur s : List Char) :
    ∀ p ∈ paraScan cur s, p.length ≤ cur.length + s.length := by
  induction cur, s using paraScan.induct with
  | case1 cur =>
    intro p hp
    rw [paraScan_nil] at hp
    simp only [List.mem_singleton] at hp
    subst hp
    simp
  | case2 cur rest rest' hm ih =>
    intro p hp
    rw [paraScan_nl_some cur hm] at hp
    rcases List.mem_cons.1 hp with h | h
    · subst h; simp
    · have h1 := ih p h
      have h2 := matchWsNl_length_le hm
      simp only [List.length_nil, List.length_cons] at *
      omega
  | case3 cur rest hm ih =>
    intro p hp
    rw [paraScan_nl_none cur hm] at hp
    have h1 := ih p hp
    simp only [List.length_cons] at *
    omega
  | case4 cur c rest hc ih =>
    intro p hp
    rw [paraScan_cons cur rest hc] at hp
    have h1 := ih p hp
    simp only [List.length_cons] at *
    omega

theorem splitOnNL_length_sum (p : List Char) :
    ((splitOnNL p).map List.length).sum + (splitOnNL p).length = p.length + 1 := by
  induction p using splitOnNL.induct with
  | case1 => simp [splitOnNL]
  | case2 rest ih =>
    rw [splitOnNL_cons_nl]
    simp only [List.map_cons, List.sum_cons, List.length_cons, List.length_nil] at *
    omega
  | case3 c rest h q qs hq ih =>
    rw [splitOnNL_cons c rest h q qs hq]
    rw [hq] at ih
    simp only [List.map_cons, List.sum_cons, List.length_cons] at *
    omega
  | case4 c rest h hq ih => exact absurd hq (splitOnNL_ne_nil rest)

theorem sum_length_filter_map_trim_le (f : List Char → Bool) (m : List (List Char)) :
    (((m.map trimStr).filter f).map List.length).sum
      + ((m.map trimStr).filter f).length
    ≤ (m.map List.length).sum + m.length := by
  induction m with
  | nil => simp
  | cons x xs ih =>
    simp only [List.map_cons, List.filter_cons, List.sum_cons, List.length_cons]
    by_cases hf : f (trimStr x)
    · simp only [hf, if_true, List.map_cons, List.sum_cons, List.length_cons]
      have := length_trimStr_le x
      omega
    · simp only [hf, Bool.false_eq_true, if_false]
      omega

theorem linesOf_length_sum_le (p : List Char) :
    ((linesOf p).map List.length).sum + (linesOf p).length ≤ p.length + 1 := by
  unfold linesOf
  have h1 := sum_length_filter_map_trim_le (fun l => !l.isEmpty) (splitOnNL p)
  have h2 := splitOnNL_length_sum p
  omega

theorem joinSep_length (c : Char) (ls : List (List Char)) (h : ls ≠ []) :
    (joinSep c ls).length + 1 = (ls.map List.length).sum + ls.length := by
  induction ls with
  | nil => simp at h
  | cons l rest ih =>
    cases rest with
    | nil => simp [joinSep]
    | cons l2 rest2 =>
      have hne : l2 :: rest2 ≠ [] := by simp
      rw [show joinSep c (l :: l2 :: rest2) = l ++ c :: joinSep c (l2 :: rest2) from rfl]
      have := ih hne
      simp only [List.length_append, List.length_cons, List.map_cons, List.sum_cons] at *
      omega

theorem ne_nil_of_mem_linesOf {p l : List Char} (h : l ∈ linesOf p) : l ≠ [] := by
  unfold linesOf at h
  have := List.of_mem_filter h
  simpa using this

theorem length_le_of_mem_paragraphsOf {t para : List Char}
    (h : para ∈ paragraphsOf t) : para.length ≤ t.length := by
  unfold paragraphsOf at h
  have h1 := List.mem_of_mem_filter h
  obtain ⟨q, hq, rfl⟩ := List.mem_map.1 h1
  have h2 : q.length ≤ (trimStr (normalizeCRLF t)).length := by
    simpa using mem_paraScan_length_le [] _ q hq
  have h3 := length_trimStr_le (normalizeCRLF t)
  have h4 := length_normalizeCRLF_le t
  have h5 := length_trimStr_le q
  omega

theorem parse_decreasing {t para : List Char} (hp : para ∈ paragraphsOf t)
    (hl : 1 < (linesOf para).length) :
    (joinSep '\n' ((linesOf para).drop 1)).length < t.length := by
  have hpl : para.length ≤ t.length := length_le_of_mem_paragraphsOf hp
  obtain ⟨l0, ls, hls⟩ : ∃ l0 ls, linesOf para = l0 :: ls := by
    cases h : linesOf para with
    | nil => rw [h] at hl; simp at hl
    | cons a b => exact ⟨a, b, rfl⟩
  have hlsne : ls ≠ [] := by
    rw [hls] at hl
    simp only [List.length_cons] at hl
    intro hc
    rw [hc] at hl
    simp at hl
  have hsum := linesOf_length_sum_le para
  rw [hls] at hsum
  have hjoin := joinSep_length '\n' ls hlsne
  have hl0 : l0 ≠ [] := ne_nil_of_mem_linesOf (by rw [hls]; exact List.mem_cons_self _ _)
  have hl0len : 1 ≤ l0.length := by
    cases l0 with
    | nil => simp at hl0
    | cons a b => simp
  rw [hls]
  simp only [List.drop_one, List.tail_cons, List.map_cons, List.sum_cons,
    List.length_cons] at *
  omega

/-! ## The parser -/

/-- `parseAssistantTextToNodes(text)` from `src/script.js`: split the
normalized, trimmed text into paragraph units; for each unit either apply the
heading rule (first line ends in a colon and more lines follow: emit a
heading and recursively parse the remaining lines re-joined with `"\n"`) or
classify the unit as a list/paragraph. -/
def parseAssistantTextToNodes (text : List Char) : List Block :=
  if text.isEmpty then []
  else
    (paragraphsOf text).attach.flatMap (fun para =>
      if h : 1 < (linesOf para.1).length ∧
          hasTrailingColonWS ((linesOf para.1).headD []) = true then
        Block.heading (stripTrailingColonWS ((linesOf para.1).headD []))
          :: parseAssistantTextToNodes (joinSep '\n' ((linesOf para.1).drop 1))
      else
        [classifyUnit (linesOf para.1)])
termination_by text.length
decreasing_by
  exact parse_decreasing para.2 h.1

/-- Structural (per-unit) form of the parser: by the round-trip lemmas below,
the heading rule's recursive call over the re-joined remaining lines is the
same as recursing into the tail of the unit's line list. -/
def parseLines : List (List Char) → List Block
  | [] => [classifyUnit []]
  | [l] => [classifyUnit [l]]
  | l0 :: l1 :: rest =>
    if hasTrailingColonWS l0 then
      Block.heading (stripTrailingColonWS l0) :: parseLines (l1 :: rest)
    else [classifyUnit (l0 :: l1 :: rest)]

/-- Executable form of the whole parser (proved equal to
`parseAssistantTextToNodes` below). -/
def parseFast (text : List Char) : List Block :=
  (paragraphsOf text).flatMap (fun para => parseLines (linesOf para))

/-! ## Separator test for the paragraph split -/

/-- Whether the separator regex `\n\s*\n` matches anywhere in `s` (the
condition under which `split(/\n\s*\n/)` produces more than one piece). -/
def hasParaSepB : List Char → Bool
  | [] => false
  | '\n' :: rest => (matchWsNl rest).isSome || hasParaSepB rest
  | _ :: rest => hasParaSepB rest

/-! ## Line-provenance (annotated) form of the classifier

The annotated classifier performs the same traversal as `classifyUnit` but
records, for every produced block, which input lines it consumed (and which
leading continuation lines a list unit drops), instead of the joined text. -/

inductive ABlock where
  | heading (line : List Char)
  | orderedList (dropped : List (List Char)) (groups : List (List (List Char)))
  | unorderedList (dropped : List (List Char)) (groups : List (List (List Char)))
  | stepList (dropped : List (List Char)) (groups : List (List (List Char)))
  | paragraph (lines : List (List Char))
deriving DecidableEq

def appendToLastGroup (gs : List (List (List Char))) (l : List Char) :
    List (List (List Char)) :=
  match gs with
  | [] => []
  | [g] => [g ++ [l]]
  | g :: rest => g :: appendToLastGroup rest l

def buildGroupsGo (isM : List Char → Bool) (acc : List (List (List Char))) :
    List (List Char) → List (List (List Char))
  | [] => acc
  | l :: ls =>
    if isM l then buildGroupsGo isM (acc ++ [[l]]) ls
    else buildGroupsGo isM (appendToLastGroup acc l) ls

def buildGroups (isM : List Char → Bool) (lines : List (List Char)) :
    List (List (List Char)) :=
  buildGroupsGo isM [] lines

/-- The text of one list item from its line group: the first line with the
marker stripped, continuations appended with single spaces. -/
def itemText (stripM : List Char → List Char) : List (List Char) → List Char
  | [] => []
  | l :: ls => joinSep ' ' (stripM l :: ls)

def classifyUnitA (lines : List (List Char)) : ABlock :=
  if 1 ≤ (lines.filter isNumberedLine).length ∧
      ¬1 ≤ (lines.filter isBulletLine).length then
    ABlock.orderedList (lines.takeWhile (fun l => !isNumberedLine l))
      (buildGroups isNumberedLine lines)
  else if 1 ≤ (lines.filter isBulletLine).length ∧
      ¬1 ≤ (lines.filter isNumberedLine).length then
    ABlock.unorderedList (lines.takeWhile (fun l => !isBulletLine l))
      (buildGroups isBulletLine lines)
  else if 2 ≤ (lines.filter isStepLine).length then
    ABlock.stepList (lines.takeWhile (fun l => !isStepLine l))
      (buildGroups isStepLine lines)
  else ABlock.paragraph lines

def parseLinesA : List (List Char) → List ABlock
  | [] => [classifyUnitA []]
  | [l] => [classifyUnitA [l]]
  | l0 :: l1 :: rest =>
    if hasTrailingColonWS l0 then ABlock.heading l0 :: parseLinesA (l1 :: rest)
    else [classifyUnitA (l0 :: l1 :: rest)]

def parseA (text : List Char) : List ABlock :=
  (paragraphsOf text).flatMap (fun para => parseLinesA (linesOf para))

/-- Erase an annotated block to the corresponding output block. -/
def renderA : ABlock → Block
  | .heading l => .heading (stripTrailingColonWS l)
  | .orderedList _ gs => .orderedList (gs.map (itemText stripNumbered))
  | .unorderedList _ gs => .unorderedList (gs.map (itemText stripBullet))
  | .stepList _ gs => .orderedList (gs.map (itemText stripStep))
  | .paragraph ls => .paragraph (joinSep ' ' ls)

def linesFull : ABlock → List (List Char)
  | .heading l => [l]
  | .orderedList d gs => d ++ gs.flatten
  | .unorderedList d gs => d ++ gs.flatten
  | .stepList d gs => d ++ gs.flatten
  | .paragraph ls => ls

def linesUsed : ABlock → List (List Char)
  | .heading l => [l]
  | .orderedList _ gs => gs.flatten
  | .unorderedList _ gs => gs.flatten
  | .stepList _ gs => gs.flatten
  | .paragraph ls => ls

/-- The non-empty trimmed lines of the whole input (after line-ending
normalization). -/
def inputLines (text : List Char) : List (List Char) :=
  linesOf (normalizeCRLF text)

/-! ## Filter engine (`applyFilters`) -/

structure Product where
  name : List Char
  brand : Option (List Char)
  category : List Char
  description : Option (List Char)
  image : List Char
deriving DecidableEq

def lowerStr (s : List Char) : List Char := s.map Char.toLower

/-- Whether `q` is an initial segment of `s`. -/
def takeEqChars : List Char → List Char → Bool
  | [], _ => true
  | _ :: _, [] => false
  | a :: as, b :: bs => a == b && takeEqChars as bs

/-- `hay.includes(q)`: `q` occurs contiguously in the second argument. -/
def containsSub (q : List Char) : List Char → Bool
  | [] => takeEqChars q []
  | c :: rest => takeEqChars q (c :: rest) || containsSub q rest

/-- The search haystack: `` `${p.name} ${p.brand || ""} ${p.description || ""}`.toLowerCase() ``
(note the single spaces between the three fields). -/
def hayOf (p : Product) : List Char :=
  lowerStr (p.name ++ ' ' :: (p.brand.getD [] ++ ' ' :: p.description.getD []))

/-- `applyFilters` from `src/script.js`, as a function of the cached catalog
and the two control values it reads. -/
def applyFilters (allProducts : List Product) (category searchValue : List Char) :
    List Product :=
  let q := lowerStr (trimStr searchValue)
  let f1 := if category.isEmpty then allProducts
    else allProducts.filter (fun p => p.category == category)
  if q.isEmpty then f1 else f1.filter (fun p => containsSub q (hayOf p))

/-- The haystack as worded by claim C6: the plain concatenation of name,
brand (default empty) and description (default empty), with no separators. -/
def specHayOf (p : Product) : List Char :=
  lowerStr (p.name ++ p.brand.getD [] ++ p.description.getD [])

/-! ## Selection set -/

structure SelProduct where
  name : List Char
  brand : List Char
  image : List Char
deriving DecidableEq

/-- The selection toggle of the product-card click handler: a `Map` is
modelled as its insertion-ordered entry list; `delete` removes the key's
entry, `set` of an absent key appends at the end. -/
def toggleSelected (sel : List (List Char × SelProduct)) (key : List Char)
    (v : SelProduct) : List (List Char × SelProduct) :=
  if sel.any (fun e => e.1 == key) then sel.filter (fun e => !(e.1 == key))
  else sel ++ [(key, v)]

/-! ## Conversation manager and chat client -/

inductive Role where
  | system
  | user
  | assistant
deriving DecidableEq

structure ChatMessage where
  role : Role
  content : List Char
deriving DecidableEq

/-- The initial `conversationMessages` array. -/
def initialConversation : List ChatMessage :=
  [⟨Role.system,
    chars ("You are a helpful skincare and beauty routine assistant. Answer only " ++
      "about skincare, haircare, makeup, fragrance, and routine-related follow-ups. " ++
      "If asked something unrelated, reply: \x27I can only help with routines and " ++
      "beauty topics — please ask something related.\x27 Keep answers concise and " ++
      "user friendly.")⟩]

/-- The DOM nodes appended by `appendAssistantMessage` for a text argument:
the parsed blocks, or a single raw paragraph when parsing yields nothing. -/
def renderAssist (text : List Char) : List Block :=
  let nodes := parseAssistantTextToNodes text
  if nodes.isEmpty then [Block.paragraph text] else nodes

inductive WindowEntry where
  | userEntry (text : List Char)
  | assistantEntry (blocks : List Block)
deriving DecidableEq

/-- `appendAssistantMessage` as an operation on the chat-window transcript. -/
def appendAssistantMessage (w : List WindowEntry) (text : List Char) :
    List WindowEntry :=
  w ++ [WindowEntry.assistantEntry (renderAssist text)]

structure ChatState where
  history : List ChatMessage
  window : List WindowEntry
deriving DecidableEq

/-- Outcome of one chat-completion request, as observed by the handlers. -/
inductive ChatOutcome where
  | success (reply : List Char)
  | httpError (status : Nat) (body : List Char)
  | noContent
  | transportError (msg : List Char)
deriving DecidableEq

def noKeyNotice : List Char :=
  chars "OpenAI API key not found. Add your key to secrets.js and reload the page."

def thinkingNotice : List Char := chars "Thinking…"

def httpErrorNotice (status : Nat) (body : List Char) : List Char :=
  chars "Error from OpenAI: " ++ chars (toString status) ++ ' ' :: body

def noResponseNotice : List Char := chars "No response from the API. Try again later."

def requestFailedNotice (msg : List Char) : List Char :=
  chars "Request failed: " ++ msg

def generatingNotice : List Char := chars "Generating a personalized routine..."

def selectProductsNotice : List Char :=
  chars "Please select one or more products before generating a routine."

/-- The `chatForm` submit handler: its effect on the conversation history and
the chat window, parametrized by the key's presence and the request outcome. -/
def submitFlow (st : ChatState) (inputValue : List Char) (keyPresent : Bool)
    (outcome : ChatOutcome) : ChatState :=
  let text := trimStr inputValue
  if text.isEmpty then st
  else
    let st1 : ChatState :=
      ⟨st.history ++ [⟨Role.user, text⟩], st.window ++ [WindowEntry.userEntry text]⟩
    if !keyPresent then ⟨st1.history, appendAssistantMessage st1.window noKeyNotice⟩
    else
      let w2 := appendAssistantMessage st1.window thinkingNotice
      match outcome with
      | .success reply =>
        ⟨st1.history ++ [⟨Role.assistant, reply⟩], appendAssistantMessage w2 reply⟩
      | .httpError status body =>
        ⟨st1.history, appendAssistantMessage w2 (httpErrorNotice status body)⟩
      | .noContent => ⟨st1.history, appendAssistantMessage w2 noResponseNotice⟩
      | .transportError m =>
        ⟨st1.history, appendAssistantMessage w2 (requestFailedNotice m)⟩

/-- One line of the product list in the routine prompt:
`` `${i + 1}. ${p.name} — ${p.brand}` ``. -/
def productListLine (i : Nat) (p : SelProduct) : List Char :=
  chars (toString (i + 1)) ++ chars ". " ++ p.name ++ chars " — " ++ p.brand

def productListText (products : List SelProduct) : List Char :=
  joinSep '\n' (products.mapIdx productListLine)

def routinePrompt (products : List SelProduct) : List Char :=
  chars "I have the following selected products:\n" ++ productListText products ++
  chars ("\n\nPlease create a personalized routine that uses these products " ++
    "where appropriate. Give step-by-step instructions (order, amount, " ++
    "frequency), and brief reasons for each step. If a product is not suitable " ++
    "for daily use, note that and suggest alternatives or frequency.\n\n" ++
    "Return a clear, numbered routine that a user can follow.")

/-- The `generateBtn` click handler, modelled like `submitFlow`. -/
def generateFlow (st : ChatState) (products : List SelProduct) (keyPresent : Bool)
    (outcome : ChatOutcome) : ChatState :=
  if products.isEmpty then
    ⟨st.history, appendAssistantMessage st.window selectProductsNotice⟩
  else
    let st1 : ChatState :=
      ⟨st.history ++ [⟨Role.user, routinePrompt products⟩],
       st.window ++ [WindowEntry.userEntry (chars "Generate routine for selected products.")]⟩
    if !keyPresent then ⟨st1.history, appendAssistantMessage st1.window noKeyNotice⟩
    else
      let w2 := appendAssistantMessage st1.window generatingNotice
      match outcome with
      | .success reply =>
        ⟨st1.history ++ [⟨Role.assistant, reply⟩], appendAssistantMessage w2 reply⟩
      | .httpError status body =>
        ⟨st1.history, appendAssistantMessage w2 (httpErrorNotice status body)⟩
      | .noContent => ⟨st1.history, appendAssistantMessage w2 noResponseNotice⟩
      | .transportError m =>
        ⟨st1.history, appendAssistantMessage w2 (requestFailedNotice m)⟩

/-- The step-marker pattern as worded by claim C4 and spec rule 4(d):
optional whitespace, the word Step, whitespace (required), digits, one of
`:` `.` `)`, optional whitespace. -/
def specStepLine (l : List Char) : Bool :=
  match l.dropWhile isWS with
  | c1 :: c2 :: c3 :: c4 :: rest =>
    c1.toLower = 's' && c2.toLower = 't' && c3.toLower = 'e' && c4.toLower = 'p' &&
      (match rest with
       | d :: _ => isWS d
       | [] => false) &&
      (let b := rest.dropWhile isWS
       !(b.takeWhile Char.isDigit).isEmpty &&
         (match b.dropWhile Char.isDigit with
          | c :: _ => c = ':' || c = '.' || c = ')'
          | [] => false))
  | _ => false

/-! ## Whitespace and trim lemmas -/

theorem dropWhile_head_false {p : α → Bool} {x : List α} {c : α} {t : List α}
    (h : x.dropWhile p = c :: t) : p c = false := by
  induction x with
  | nil => simp at h
  | cons a as ih =>
    rw [List.dropWhile_cons] at h
    by_cases hp : p a = true
    · exact ih (by simpa [hp] using h)
    · rw [if_neg (by simp_all)] at h
      cases h
      simpa using hp

theorem dropWhile_eq_self_of_cons {p : α → Bool} {c : α} {t : List α}
    (h : p c = false) : (c :: t).dropWhile p = c :: t := by
  rw [List.dropWhile_cons, if_neg (by simp [h])]

theorem dropWhile_all {p : α → Bool} {w x : List α} (hw : ∀ c ∈ w, p c = true) :
    (w ++ x).dropWhile p = x.dropWhile p := by
  rw [List.dropWhile_append]
  rw [List.dropWhile_eq_nil_iff.2 hw]
  simp

theorem trimStr_allWS {s : List Char} (h : ∀ c ∈ s, isWS c = true) :
    trimStr s = [] := by
  unfold trimStr
  rw [List.dropWhile_eq_nil_iff.2 h]
  simp

theorem trimStr_nil : trimStr [] = [] := rfl

theorem trimStr_ws_cons {c : Char} {s : List Char} (h : isWS c = true) :
    trimStr (c :: s) = trimStr s := by
  unfold trimStr
  rw [List.dropWhile_cons, if_pos h]

theorem trimStr_append_ws {b w : List Char} (hw : ∀ c ∈ w, isWS c = true) :
    trimStr (b ++ w) = trimStr b := by
  unfold trimStr
  by_cases hb : b.dropWhile isWS = []
  · rw [List.dropWhile_append, hb]
    simp only [List.isEmpty_nil, if_true]
    rw [List.dropWhile_eq_nil_iff.2 hw]
  · rw [List.dropWhile_append, if_neg (by simpa using hb)]
    rw [List.reverse_append]
    rw [dropWhile_all (by intro c hc; exact hw c (List.mem_reverse.1 hc))]

theorem trimStr_ws_append {w b : List Char} (hw : ∀ c ∈ w, isWS c = true) :
    trimStr (w ++ b) = trimStr b := by
  unfold trimStr
  rw [dropWhile_all hw]

theorem trimStr_decomp (s : List Char) :
    ∃ pre suf, s = pre ++ trimStr s ++ suf ∧ (∀ c ∈ pre, isWS c = true) ∧
      (∀ c ∈ suf, isWS c = true) := by
  refine ⟨s.takeWhile isWS,
    ((s.dropWhile isWS).reverse.takeWhile isWS).reverse, ?_, ?_, ?_⟩
  · have hsplit : s.dropWhile isWS
        = trimStr s ++ ((s.dropWhile isWS).reverse.takeWhile isWS).reverse := by
      calc s.dropWhile isWS
          = ((s.dropWhile isWS).reverse).reverse := (List.reverse_reverse _).symm
        _ = (List.takeWhile isWS (s.dropWhile isWS).reverse
              ++ List.dropWhile isWS (s.dropWhile isWS).reverse).reverse := by
            rw [List.takeWhile_append_dropWhile]
        _ = (List.dropWhile isWS (s.dropWhile isWS).reverse).reverse
              ++ (List.takeWhile isWS (s.dropWhile isWS).reverse).reverse := by
            rw [List.reverse_append]
        _ = trimStr s ++ ((s.dropWhile isWS).reverse.takeWhile isWS).reverse := rfl
    conv_lhs => rw [← List.takeWhile_append_dropWhile isWS s, hsplit]
    rw [List.append_assoc]
  · intro c hc; exact List.mem_takeWhile_imp hc
  · intro c hc
    exact List.mem_takeWhile_imp (List.mem_reverse.1 hc)

theorem mem_of_mem_trimStr {c : Char} {s : List Char} (h : c ∈ trimStr s) :
    c ∈ s := by
  obtain ⟨pre, suf, hs, -, -⟩ := trimStr_decomp s
  rw [hs]
  simp [h]

theorem mem_trimStr_of_mem {c : Char} {s : List Char} (h : c ∈ s)
    (hc : isWS c = false) : c ∈ trimStr s := by
  obtain ⟨pre, suf, hs, hpre, hsuf⟩ := trimStr_decomp s
  rw [hs] at h
  simp only [List.mem_append] at h
  rcases h with (h | h) | h
  · rw [hpre c h] at hc; cases hc
  · exact h
  · rw [hsuf c h] at hc; cases hc

theorem allWS_of_trimStr_eq_nil {s : List Char} (h : trimStr s = []) :
    ∀ c ∈ s, isWS c = true := by
  intro c hc
  by_contra hw
  have := mem_trimStr_of_mem hc (by simpa using hw)
  rw [h] at this
  simp at this

theorem dropWhile_eq_self_of_trimStr {s : List Char} (h : trimStr s = s) :
    s.dropWhile isWS = s := by
  have h1 : (trimStr s).length ≤ (s.dropWhile isWS).length := by
    unfold trimStr
    calc ((s.dropWhile isWS).reverse.dropWhile isWS).reverse.length
        = ((s.dropWhile isWS).reverse.dropWhile isWS).length := List.length_reverse _
      _ ≤ (s.dropWhile isWS).reverse.length := (List.dropWhile_sublist _).length_le
      _ = (s.dropWhile isWS).length := List.length_reverse _
  have h2 : (s.dropWhile isWS).length ≤ s.length := (List.dropWhile_sublist _).length_le
  rw [h] at h1
  exact (List.dropWhile_sublist isWS).eq_of_length (by omega)

theorem dropWhile_reverse_eq_self_of_trimStr {s : List Char} (h : trimStr s = s) :
    s.reverse.dropWhile isWS = s.reverse := by
  have h1 := dropWhile_eq_self_of_trimStr h
  have h2 : trimStr s = (s.reverse.dropWhile isWS).reverse := by
    unfold trimStr
    rw [h1]
  rw [h] at h2
  rw [← List.reverse_inj, List.reverse_reverse]
  exact h2.symm

theorem trimStr_eq_self_of_ends {s : List Char}
    (hh : ∀ c t, s = c :: t → isWS c = false)
    (hl : ∀ c t, s.reverse = c :: t → isWS c = false) :
    trimStr s = s := by
  unfold trimStr
  have h1 : s.dropWhile isWS = s := by
    cases hs : s with
    | nil => simp
    | cons c t => exact dropWhile_eq_self_of_cons (hh c t hs)
  rw [h1]
  have h2 : s.reverse.dropWhile isWS = s.reverse := by
    cases hs : s.reverse with
    | nil => simp [hs]
    | cons c t => exact dropWhile_eq_self_of_cons (hl c t hs)
  rw [h2, List.reverse_reverse]

theorem head_dropWhile_false {p : α → Bool} {x : List α} {c : α}
    (h : (x.dropWhile p).head? = some c) : p c = false := by
  cases hx : x.dropWhile p with
  | nil => rw [hx] at h; cases h
  | cons a t =>
    rw [hx] at h
    injection h with h
    subst h
    exact dropWhile_head_false hx

theorem getLast?_dropWhile {p : α → Bool} {x : List α}
    (h : x.dropWhile p ≠ []) : (x.dropWhile p).getLast? = x.getLast? := by
  conv_rhs => rw [← List.takeWhile_append_dropWhile p x]
  rw [List.getLast?_append_of_ne_nil _ h]

theorem trimStr_head?_not_ws {s : List Char} {c : Char}
    (h : (trimStr s).head? = some c) : isWS c = false := by
  unfold trimStr at h
  rw [List.head?_reverse] at h
  have hne : (s.dropWhile isWS).reverse.dropWhile isWS ≠ [] := by
    intro hx
    rw [hx] at h
    cases h
  rw [getLast?_dropWhile hne, List.getLast?_reverse] at h
  exact head_dropWhile_false h

theorem trimStr_getLast?_not_ws {s : List Char} {c : Char}
    (h : (trimStr s).getLast? = some c) : isWS c = false := by
  unfold trimStr at h
  rw [List.getLast?_reverse] at h
  exact head_dropWhile_false h

theorem trimStr_idem (s : List Char) : trimStr (trimStr s) = trimStr s := by
  apply trimStr_eq_self_of_ends
  · intro c t hs
    exact trimStr_head?_not_ws (by rw [hs]; rfl)
  · intro c t hs
    apply trimStr_getLast?_not_ws (c := c)
    rw [← List.head?_reverse, hs]
    rfl

/-! ## Lines of a string -/

theorem splitOnNL_append_nl (a b : List Char) :
    splitOnNL (a ++ '\n' :: b) = splitOnNL a ++ splitOnNL b := by
  induction a with
  | nil => simp [splitOnNL_cons_nl, splitOnNL]
  | cons c as ih =>
    by_cases hc : c = '\n'
    · subst hc
      rw [List.cons_append, splitOnNL_cons_nl, splitOnNL_cons_nl, ih]
      rfl
    · obtain ⟨q, qs, hq⟩ : ∃ q qs, splitOnNL as = q :: qs := by
        cases h : splitOnNL as with
        | nil => exact absurd h (splitOnNL_ne_nil as)
        | cons x y => exact ⟨x, y, rfl⟩
      have h2 : splitOnNL (as ++ '\n' :: b) = q :: (qs ++ splitOnNL b) := by
        rw [ih, hq]; rfl
      rw [List.cons_append, splitOnNL_cons c _ hc q (qs ++ splitOnNL b) h2,
        splitOnNL_cons c as hc q qs hq]
      rfl

theorem splitOnNL_no_nl {b : List Char} (h : '\n' ∉ b) : splitOnNL b = [b] := by
  induction b with
  | nil => rfl
  | cons c as ih =>
    have hc : ¬c = '\n' := fun hx => h (hx ▸ List.mem_cons_self c as)
    have has : '\n' ∉ as := fun hx => h (List.mem_cons_of_mem c hx)
    rw [splitOnNL_cons c as hc as [] (ih has)]

theorem nl_not_mem_splitOnNL_all {s : List Char} :
    ∀ p ∈ splitOnNL s, '\n' ∉ p := by
  induction s using splitOnNL.induct with
  | case1 =>
    intro p hp
    simp only [splitOnNL, List.mem_singleton] at hp
    subst hp
    simp
  | case2 rest ih =>
    intro p hp
    rw [splitOnNL_cons_nl] at hp
    rcases List.mem_cons.1 hp with h | h
    · subst h; simp
    · exact ih p h
  | case3 c rest h q qs hq ih =>
    intro p hp
    rw [splitOnNL_cons c rest h q qs hq] at hp
    rcases List.mem_cons.1 hp with h2 | h2
    · subst h2
      intro hmem
      rcases List.mem_cons.1 hmem with h3 | h3
      · exact h h3.symm
      · exact ih q (by rw [hq]; exact List.mem_cons_self q qs) h3
    · exact ih p (by rw [hq]; exact List.mem_cons_of_mem q h2)
  | case4 c rest h hq ih => exact absurd hq (splitOnNL_ne_nil rest)

theorem mem_of_mem_splitOnNL_all {s : List Char} :
    ∀ p ∈ splitOnNL s, ∀ c ∈ p, c ∈ s := by
  induction s using splitOnNL.induct with
  | case1 =>
    intro p hp c hc
    simp only [splitOnNL, List.mem_singleton] at hp
    subst hp
    simp at hc
  | case2 rest ih =>
    intro p hp c hc
    rw [splitOnNL_cons_nl] at hp
    rcases List.mem_cons.1 hp with h | h
    · subst h; simp at hc
    · exact List.mem_cons_of_mem _ (ih p h c hc)
  | case3 c' rest h q qs hq ih =>
    intro p hp c hc
    rw [splitOnNL_cons c' rest h q qs hq] at hp
    rcases List.mem_cons.1 hp with h2 | h2
    · subst h2
      rcases List.mem_cons.1 hc with h3 | h3
      · subst h3; exact List.mem_cons_self _ _
      · exact List.mem_cons_of_mem _
          (ih q (by rw [hq]; exact List.mem_cons_self q qs) c h3)
    · exact List.mem_cons_of_mem _
        (ih p (by rw [hq]; exact List.mem_cons_of_mem q h2) c hc)
  | case4 c' rest h hq ih => exact absurd hq (splitOnNL_ne_nil rest)

theorem mem_of_mem_splitOnNL {s p : List Char} (hp : p ∈ splitOnNL s) {c : Char}
    (hc : c ∈ p) : c ∈ s :=
  mem_of_mem_splitOnNL_all p hp c hc

theorem nl_not_mem_splitOnNL {s p : List Char} (hp : p ∈ splitOnNL s) :
    '\n' ∉ p :=
  nl_not_mem_splitOnNL_all p hp

theorem linesOf_nil : linesOf [] = [] := rfl

theorem linesOf_cons_nl (s : List Char) : linesOf ('\n' :: s) = linesOf s := by
  unfold linesOf
  rw [splitOnNL_cons_nl]
  simp [trimStr_nil]

theorem linesOf_cons_ws {c : Char} {s : List Char} (h : isWS c = true) :
    linesOf (c :: s) = linesOf s := by
  by_cases hc : c = '\n'
  · subst hc; exact linesOf_cons_nl s
  · obtain ⟨q, qs, hq⟩ : ∃ q qs, splitOnNL s = q :: qs := by
      cases hx : splitOnNL s with
      | nil => exact absurd hx (splitOnNL_ne_nil s)
      | cons x y => exact ⟨x, y, rfl⟩
    unfold linesOf
    rw [splitOnNL_cons c s hc q qs hq, hq]
    simp only [List.map_cons]
    rw [trimStr_ws_cons h]

theorem linesOf_append_nl (a b : List Char) :
    linesOf (a ++ '\n' :: b) = linesOf a ++ linesOf b := by
  unfold linesOf
  rw [splitOnNL_append_nl, List.map_append, List.filter_append]

theorem linesOf_allWS {s : List Char} (h : ∀ c ∈ s, isWS c = true) :
    linesOf s = [] := by
  unfold linesOf
  rw [List.filter_eq_nil_iff]
  intro a ha
  obtain ⟨piece, hpiece, rfl⟩ := List.mem_map.1 ha
  have : ∀ c ∈ piece, isWS c = true := fun c hc =>
    h c (mem_of_mem_splitOnNL hpiece hc)
  rw [trimStr_allWS this]
  simp

theorem linesOf_ws_left {w : List Char} (hw : ∀ c ∈ w, isWS c = true)
    (b : List Char) : linesOf (w ++ b) = linesOf b := by
  induction w with
  | nil => rfl
  | cons c w' ih =>
    rw [List.cons_append, linesOf_cons_ws (hw c (List.mem_cons_self c w'))]
    exact ih (fun x hx => hw x (List.mem_cons_of_mem c hx))

theorem linesOf_single_of_no_nl {b : List Char} (h : '\n' ∉ b) :
    linesOf b = ([b].map trimStr).filter (fun l => !l.isEmpty) := by
  unfold linesOf
  rw [splitOnNL_no_nl h]

theorem linesOf_append_ws_aux : ∀ n : Nat, ∀ b : List Char, b.length ≤ n →
    ∀ w : List Char, (∀ c ∈ w, isWS c = true) →
      linesOf (b ++ w) = linesOf b := by
  intro n
  induction n with
  | zero =>
    intro b hb w hw
    have : b = [] := by cases b with
      | nil => rfl
      | cons x y => simp at hb
    subst this
    rw [List.nil_append, linesOf_allWS hw]
    rfl
  | succ n ih =>
    intro b hb w hw
    by_cases hnl : '\n' ∈ b
    · obtain ⟨b1, b2, rfl⟩ := List.append_of_mem hnl
      rw [List.append_assoc, List.cons_append]
      rw [linesOf_append_nl b1 (b2 ++ w), linesOf_append_nl b1 b2]
      congr 1
      apply ih b2 _ w hw
      have := List.length_append b1 ('\n' :: b2)
      simp only [List.length_cons] at this
      rw [this] at hb
      omega
    · by_cases hw2 : '\n' ∈ w
      · have hsplit : w = w.takeWhile (fun c => !(c == '\n'))
            ++ w.dropWhile (fun c => !(c == '\n')) :=
          (List.takeWhile_append_dropWhile _ w).symm
        obtain ⟨w2, hw2'⟩ : ∃ w2,
            w.dropWhile (fun c => !(c == '\n')) = '\n' :: w2 := by
          cases hr : w.dropWhile (fun c => !(c == '\n')) with
          | nil =>
            exfalso
            have := List.dropWhile_eq_nil_iff.1 hr '\n' hw2
            simp at this
          | cons c w2 =>
            have hc := dropWhile_head_false hr
            simp only [Bool.not_eq_false', beq_iff_eq] at hc
            exact ⟨w2, by rw [hc]⟩
        have hw1nl : '\n' ∉ w.takeWhile (fun c => !(c == '\n')) := by
          intro hx
          have := List.mem_takeWhile_imp hx
          simp at this
        have hw1ws : ∀ c ∈ w.takeWhile (fun c => !(c == '\n')), isWS c = true :=
          fun c hc => hw c ((List.takeWhile_sublist _).mem hc)
        have hw2ws : ∀ c ∈ w2, isWS c = true := by
          intro c hc
          apply hw
          rw [hsplit, hw2']
          exact List.mem_append_right _ (List.mem_cons_of_mem _ hc)
        have key : b ++ w
            = (b ++ w.takeWhile (fun c => !(c == '\n'))) ++ '\n' :: w2 := by
          rw [List.append_assoc, ← hw2', ← hsplit]
        rw [key, linesOf_append_nl, linesOf_allWS hw2ws, List.append_nil]
        have hbw1 : '\n' ∉ b ++ w.takeWhile (fun c => !(c == '\n')) := by
          intro hx
          rcases List.mem_append.1 hx with h | h
          · exact hnl h
          · exact hw1nl h
        rw [linesOf_single_of_no_nl hbw1, linesOf_single_of_no_nl hnl]
        simp only [List.map_cons, List.map_nil]
        rw [trimStr_append_ws hw1ws]
      · rw [linesOf_single_of_no_nl (by
          intro hx
          rcases List.mem_append.1 hx with h | h
          · exact hnl h
          · exact hw2 h), linesOf_single_of_no_nl hnl]
        simp only [List.map_cons, List.map_nil]
        rw [trimStr_append_ws hw]

theorem linesOf_append_ws {b w : List Char} (hw : ∀ c ∈ w, isWS c = true) :
    linesOf (b ++ w) = linesOf b :=
  linesOf_append_ws_aux b.length b (Nat.le_refl _) w hw

theorem linesOf_trimStr (s : List Char) : linesOf (trimStr s) = linesOf s := by
  obtain ⟨pre, suf, hs, hpre, hsuf⟩ := trimStr_decomp s
  conv_rhs => rw [hs]
  rw [List.append_assoc, linesOf_ws_left hpre, linesOf_append_ws hsuf]

theorem mem_linesOf_props {p l : List Char} (h : l ∈ linesOf p) :
    trimStr l = l ∧ l ≠ [] ∧ '\n' ∉ l := by
  unfold linesOf at h
  have h1 := List.mem_of_mem_filter h
  have h2 := List.of_mem_filter h
  obtain ⟨piece, hpiece, rfl⟩ := List.mem_map.1 h1
  refine ⟨trimStr_idem piece, by simpa using h2, ?_⟩
  intro hx
  exact nl_not_mem_splitOnNL hpiece (mem_of_mem_trimStr hx)

/-! ## Paragraph-split lemmas -/

theorem matchWsNl_decomp {s r : List Char} (h : matchWsNl s = some r) :
    ∃ w1, s = w1 ++ '\n' :: r ∧ ∀ c ∈ w1, isWS c = true := by
  unfold matchWsNl at h
  by_cases hw : '\n' ∈ s.takeWhile isWS
  · simp only [hw, if_true, Option.some.injEq] at h
    have hrev : '\n' ∈ (s.takeWhile isWS).reverse := List.mem_reverse.2 hw
    obtain ⟨d, hd⟩ : ∃ d, (s.takeWhile isWS).reverse.dropWhile
        (fun c => c ≠ '\n') = '\n' :: d := by
      cases hx : (s.takeWhile isWS).reverse.dropWhile (fun c => c ≠ '\n') with
      | nil =>
        exfalso
        have := List.dropWhile_eq_nil_iff.1 hx '\n' hrev
        simp at this
      | cons c d =>
        have hc := dropWhile_head_false hx
        simp only [ne_eq, decide_not, Bool.not_eq_false', decide_eq_true_eq] at hc
        exact ⟨d, by rw [hc]⟩
    have hsplit : (s.takeWhile isWS).reverse
        = (s.takeWhile isWS).reverse.takeWhile (fun c => c ≠ '\n') ++ '\n' :: d := by
      conv_lhs => rw [← List.takeWhile_append_dropWhile (fun c => c ≠ '\n')
        (s.takeWhile isWS).reverse]
      rw [hd]
    have hw' : s.takeWhile isWS
        = d.reverse ++ '\n' ::
          ((s.takeWhile isWS).reverse.takeWhile (fun c => c ≠ '\n')).reverse := by
      have h2 : (d.reverse ++ '\n' ::
          ((s.takeWhile isWS).reverse.takeWhile (fun c => c ≠ '\n')).reverse).reverse
          = (s.takeWhile isWS).reverse.takeWhile (fun c => c ≠ '\n') ++ '\n' :: d := by
        rw [List.reverse_append, List.reverse_cons, List.reverse_reverse,
          List.reverse_reverse, List.append_assoc, List.singleton_append]
      exact (List.reverse_inj.1 (by rw [h2, ← hsplit])).symm
    refine ⟨d.reverse, ?_, ?_⟩
    · conv_lhs => rw [← List.takeWhile_append_dropWhile isWS s]
      rw [hw', ← h, List.append_assoc]
      rfl
    · intro c hc
      have h1 : c ∈ (s.takeWhile isWS).reverse := by
        rw [hsplit]
        exact List.mem_append_right _
          (List.mem_cons_of_mem _ (List.mem_reverse.1 hc))
      exact List.mem_takeWhile_imp (List.mem_reverse.1 h1)
  · simp [hw] at h

theorem matchWsNl_none_of_head {c : Char} {t : List Char} (h : isWS c = false) :
    matchWsNl (c :: t) = none := by
  unfold matchWsNl
  rw [List.takeWhile_cons, if_neg (by simp [h])]

theorem hasParaSepB_nil : hasParaSepB [] = false := rfl

theorem hasParaSepB_cons_nl (rest : List Char) :
    hasParaSepB ('\n' :: rest) = ((matchWsNl rest).isSome || hasParaSepB rest) := rfl

theorem hasParaSepB_cons {c : Char} (rest : List Char) (h : ¬c = '\n') :
    hasParaSepB (c :: rest) = hasParaSepB rest := by
  rw [hasParaSepB.eq_def]
  split
  · simp_all
  · simp_all
  · rename_i c' rest' hne heq
    injection heq with h1 h2
    subst h1; subst h2
    rfl

theorem paraScan_no_sep {s : List Char} (h : hasParaSepB s = false) :
    ∀ cur, paraScan cur s = [cur.reverse ++ s] := by
  induction s using hasParaSepB.induct with
  | case1 => intro cur; rw [paraScan_nil]; simp
  | case2 rest ih =>
    intro cur
    rw [hasParaSepB_cons_nl] at h
    simp only [Bool.or_eq_false_iff] at h
    have hm : matchWsNl rest = none := by
      cases hx : matchWsNl rest with
      | none => rfl
      | some r => rw [hx] at h; simp at h
    rw [paraScan_nl_none cur hm]
    rw [ih h.2 ('\n' :: cur)]
    simp
  | case3 c rest hne ih =>
    intro cur
    rw [hasParaSepB_cons rest hne] at h
    rw [paraScan_cons cur rest hne, ih h (c :: cur)]
    simp

theorem paraScan_flatMap_linesOf :
    ∀ (cur s : List Char),
      (paraScan cur s).flatMap linesOf = linesOf (cur.reverse ++ s) := by
  intro cur s
  induction cur, s using paraScan.induct with
  | case1 cur => rw [paraScan_nil]; simp [List.flatMap_cons]
  | case2 cur rest rest' hm ih =>
    rw [paraScan_nl_some cur hm]
    rw [List.flatMap_cons, ih]
    obtain ⟨w1, hrest, hw1⟩ := matchWsNl_decomp hm
    rw [hrest]
    rw [show cur.reverse ++ '\n' :: (w1 ++ '\n' :: rest')
        = cur.reverse ++ '\n' :: (w1 ++ '\n' :: rest') from rfl]
    rw [linesOf_append_nl cur.reverse (w1 ++ '\n' :: rest')]
    rw [linesOf_ws_left hw1, linesOf_cons_nl]
    simp
  | case3 cur rest hm ih =>
    rw [paraScan_nl_none cur hm, ih]
    simp
  | case4 cur c rest hc ih =>
    rw [paraScan_cons cur rest hc, ih]
    simp

theorem hasParaSepB_no_nl {a : List Char} (h : '\n' ∉ a) :
    hasParaSepB a = false := by
  induction a with
  | nil => rfl
  | cons c t ih =>
    have hc : ¬c = '\n' := fun hx => h (hx ▸ List.mem_cons_self c t)
    rw [hasParaSepB_cons t hc]
    exact ih (fun hx => h (List.mem_cons_of_mem c hx))

theorem hasParaSepB_append_no_nl {a : List Char} (h : '\n' ∉ a) (b : List Char) :
    hasParaSepB (a ++ b) = hasParaSepB b := by
  induction a with
  | nil => rfl
  | cons c t ih =>
    have hc : ¬c = '\n' := fun hx => h (hx ▸ List.mem_cons_self c t)
    rw [List.cons_append, hasParaSepB_cons _ hc]
    exact ih (fun hx => h (List.mem_cons_of_mem c hx))

/-! ## normalizeCRLF lemmas -/

theorem normalizeCRLF_cons {c : Char} {rest : List Char}
    (h : ¬(c = '\r' ∧ rest.head? = some '\n')) :
    normalizeCRLF (c :: rest) = c :: normalizeCRLF rest := by
  rw [normalizeCRLF.eq_def]
  split
  · rename_i rest' heq
    injection heq with h1 h2
    exfalso
    exact h ⟨h1, by rw [h2]; rfl⟩
  · rename_i c' rest' hne heq
    injection heq with h1 h2
    subst h1; subst h2
    rfl
  · rename_i heq; cases heq

theorem normalizeCRLF_no_nl {s : List Char} (h : '\n' ∉ s) :
    normalizeCRLF s = s := by
  induction s with
  | nil => rfl
  | cons c t ih =>
    rw [normalizeCRLF_cons (by
      rintro ⟨-, hh⟩
      cases t with
      | nil => cases hh
      | cons d t' =>
        injection hh with hd
        exact h (List.mem_cons_of_mem c (hd ▸ List.mem_cons_self d t')))]
    rw [ih (fun hx => h (List.mem_cons_of_mem c hx))]

theorem normalizeCRLF_append_no_nl {a : List Char} (hnl : '\n' ∉ a)
    (hlast : a.getLast? ≠ some '\r') (b : List Char) :
    normalizeCRLF (a ++ b) = a ++ normalizeCRLF b := by
  induction a with
  | nil => rfl
  | cons c t ih =>
    have hcnl : ¬c = '\n' := fun hx => hnl (hx ▸ List.mem_cons_self c t)
    cases t with
    | nil =>
      have hlast' : ¬c = '\r' := by
        intro hc
        exact hlast (by rw [hc]; rfl)
      rw [List.cons_append, List.nil_append, normalizeCRLF_cons (by
        rintro ⟨hc, -⟩
        exact hlast' hc)]
      rfl
    | cons d t' =>
      have hd : ¬d = '\n' := fun hx =>
        hnl (List.mem_cons_of_mem c (hx ▸ List.mem_cons_self d t'))
      rw [List.cons_append, normalizeCRLF_cons (by
        rintro ⟨-, hh⟩
        rw [List.cons_append] at hh
        injection hh with hh
        exact hd hh)]
      rw [ih (fun hx => hnl (List.mem_cons_of_mem c hx))
        (by rwa [List.getLast?_cons_cons] at hlast)]
      simp

/-! ## Structural evaluator for the paragraph scan

`paraScan` is defined by well-founded recursion, which the kernel does not
unfold; `paraScanF` is a fuel-indexed structural version, proved equal for
sufficient fuel, used to evaluate the parser on concrete inputs. -/

def paraScanF : Nat → List Char → List Char → List (List Char)
  | 0, cur, s => [cur.reverse ++ s]
  | _ + 1, cur, [] => [cur.reverse]
  | fuel + 1, cur, '\n' :: rest =>
    (match matchWsNl rest with
     | some rest' => cur.reverse :: paraScanF fuel [] rest'
     | none => paraScanF fuel ('\n' :: cur) rest)
  | fuel + 1, cur, c :: rest => paraScanF fuel (c :: cur) rest

theorem paraScanF_cons_nl (fuel : Nat) (cur rest : List Char) :
    paraScanF (fuel + 1) cur ('\n' :: rest)
      = (match matchWsNl rest with
         | some rest' => cur.reverse :: paraScanF fuel [] rest'
         | none => paraScanF fuel ('\n' :: cur) rest) := rfl

theorem paraScanF_cons (fuel : Nat) (cur : List Char) {c : Char} (rest : List Char)
    (h : ¬c = '\n') :
    paraScanF (fuel + 1) cur (c :: rest) = paraScanF fuel (c :: cur) rest := by
  rw [paraScanF.eq_def]
  split
  · simp_all
  · simp_all
  · simp_all
  · rename_i f' c' rest' hne heq1 heq2
    injection heq1 with h3
    injection heq2 with h1 h2
    subst h3; subst h1; subst h2
    rfl

theorem paraScanF_eq : ∀ (fuel : Nat) (cur s : List Char), s.length < fuel →
    paraScanF fuel cur s = paraScan cur s := by
  intro fuel
  induction fuel with
  | zero => intro cur s h; simp at h
  | succ fuel ih =>
    intro cur s h
    cases s with
    | nil => rw [paraScan_nil]; rfl
    | cons c rest =>
      by_cases hc : c = '\n'
      · subst hc
        rw [paraScanF_cons_nl]
        cases hm : matchWsNl rest with
        | some rest' =>
          rw [paraScan_nl_some cur hm]
          have h1 := matchWsNl_length_le hm
          simp only [List.length_cons] at h
          show cur.reverse :: paraScanF fuel [] rest'
            = cur.reverse :: paraScan [] rest'
          rw [ih [] rest' (by omega)]
        | none =>
          rw [paraScan_nl_none cur hm]
          simp only [List.length_cons] at h
          show paraScanF fuel ('\n' :: cur) rest = paraScan ('\n' :: cur) rest
          exact ih ('\n' :: cur) rest (by omega)
      · rw [paraScanF_cons fuel cur rest hc, paraScan_cons cur rest hc]
        simp only [List.length_cons] at h
        exact ih (c :: cur) rest (by omega)

/-- Computable form of `paragraphsOf`. -/
def paragraphsOfC (text : List Char) : List (List Char) :=
  ((paraScanF ((trimStr (normalizeCRLF text)).length + 1) []
      (trimStr (normalizeCRLF text))).map trimStr).filter (fun p => !p.isEmpty)

theorem paragraphsOfC_eq (text : List Char) :
    paragraphsOfC text = paragraphsOf text := by
  unfold paragraphsOfC paragraphsOf splitParas
  rw [paraScanF_eq _ [] _ (by omega)]

/-! ## Round trip: re-joined lines parse as one unit -/

theorem joinSep_cons₂ (sep : Char) (x y : List Char) (r : List (List Char)) :
    joinSep sep (x :: y :: r) = x ++ sep :: joinSep sep (y :: r) := rfl

theorem joinSep_head_append (sep : Char) (x : List Char) (xs : List (List Char)) :
    ∃ r, joinSep sep (x :: xs) = x ++ r := by
  cases xs with
  | nil => exact ⟨[], by simp [joinSep]⟩
  | cons y ys => exact ⟨sep :: joinSep sep (y :: ys), rfl⟩

theorem joinSep_append_single (sep : Char) (z : List Char) :
    ∀ ys : List (List Char), ys ≠ [] →
      joinSep sep (ys ++ [z]) = joinSep sep ys ++ sep :: z := by
  intro ys
  induction ys with
  | nil => intro h; simp at h
  | cons y ys' ih =>
    intro _
    cases ys' with
    | nil => rfl
    | cons y2 ys'' =>
      show joinSep sep (y :: y2 :: (ys'' ++ [z]))
        = joinSep sep (y :: y2 :: ys'') ++ sep :: z
      rw [joinSep_cons₂ sep y y2 (ys'' ++ [z]), joinSep_cons₂ sep y y2 ys'']
      have e3 : y2 :: (ys'' ++ [z]) = (y2 :: ys'') ++ [z] := rfl
      rw [e3, ih (by simp), List.append_assoc]
      rfl

theorem joinSep_reverse (sep : Char) :
    ∀ ls : List (List Char),
      (joinSep sep ls).reverse = joinSep sep ((ls.map List.reverse).reverse) := by
  intro ls
  induction ls using joinSep.induct sep with
  | case1 => rfl
  | case2 l => simp [joinSep]
  | case3 l l2 hne2 ih =>
    obtain ⟨y, ys, rfl⟩ : ∃ y ys, l2 = y :: ys := by
      cases hx : l2 with
      | nil => exact absurd hx hne2
      | cons a b => exact ⟨a, b, rfl⟩
    rw [joinSep_cons₂, List.reverse_append, List.reverse_cons, ih]
    have hne : ((y :: ys).map List.reverse).reverse ≠ [] := by simp
    conv_rhs => rw [List.map_cons, List.reverse_cons]
    rw [joinSep_append_single sep l.reverse _ hne, List.append_assoc,
      List.singleton_append]

theorem head?_not_ws_of_trimmed {l : List Char} (h : trimStr l = l) {c : Char}
    (hc : l.head? = some c) : isWS c = false := by
  apply trimStr_head?_not_ws (s := l)
  rw [h]
  exact hc

theorem getLast?_not_ws_of_trimmed {l : List Char} (h : trimStr l = l) {c : Char}
    (hc : l.getLast? = some c) : isWS c = false := by
  apply trimStr_getLast?_not_ws (s := l)
  rw [h]
  exact hc

theorem joinSep_no_sep {ls : List (List Char)}
    (hg : ∀ l ∈ ls, trimStr l = l ∧ l ≠ [] ∧ '\n' ∉ l) :
    hasParaSepB (joinSep '\n' ls) = false := by
  induction ls with
  | nil => rfl
  | cons l xs ih =>
    cases xs with
    | nil => exact hasParaSepB_no_nl (hg l (List.mem_cons_self _ _)).2.2
    | cons l2 rest =>
      rw [joinSep_cons₂,
        hasParaSepB_append_no_nl (hg l (List.mem_cons_self _ _)).2.2,
        hasParaSepB_cons_nl]
      have hg2 : ∀ x ∈ l2 :: rest, trimStr x = x ∧ x ≠ [] ∧ '\n' ∉ x :=
        fun x hx => hg x (List.mem_cons_of_mem _ hx)
      have ih2 := ih hg2
      obtain ⟨r, hr⟩ := joinSep_head_append '\n' l2 rest
      obtain ⟨c0, l2t, hl2⟩ : ∃ c0 l2t, l2 = c0 :: l2t := by
        cases hx : l2 with
        | nil => exact absurd hx (hg2 l2 (List.mem_cons_self _ _)).2.1
        | cons a b => exact ⟨a, b, rfl⟩
      have hc0 : isWS c0 = false :=
        head?_not_ws_of_trimmed (hg2 l2 (List.mem_cons_self _ _)).1
          (by rw [hl2]; rfl)
      have hm : matchWsNl (joinSep '\n' (l2 :: rest)) = none := by
        rw [hr, hl2, List.cons_append]
        exact matchWsNl_none_of_head hc0
      rw [hm, ih2]
      rfl

theorem trimStr_joinSep {ls : List (List Char)} (hne : ls ≠ [])
    (hg : ∀ l ∈ ls, trimStr l = l ∧ l ≠ [] ∧ '\n' ∉ l) :
    trimStr (joinSep '\n' ls) = joinSep '\n' ls := by
  obtain ⟨x, xs, rfl⟩ : ∃ x xs, ls = x :: xs := by
    cases hx : ls with
    | nil => exact absurd hx hne
    | cons a b => exact ⟨a, b, rfl⟩
  apply trimStr_eq_self_of_ends
  · intro c t hs
    obtain ⟨r, hr⟩ := joinSep_head_append '\n' x xs
    obtain ⟨c0, xt, hx⟩ : ∃ c0 xt, x = c0 :: xt := by
      cases hx : x with
      | nil => exact absurd hx (hg x (List.mem_cons_self _ _)).2.1
      | cons a b => exact ⟨a, b, rfl⟩
    have hcc : c = c0 := by
      rw [hr, hx] at hs
      injection hs with h1 h2
      exact h1.symm
    subst hcc
    exact head?_not_ws_of_trimmed (hg x (List.mem_cons_self _ _)).1
      (by rw [hx]; rfl)
  · intro c t hs
    rw [joinSep_reverse] at hs
    obtain ⟨ys, z, hlz⟩ : ∃ ys z, x :: xs = ys ++ [z] := by
      have h1 : (x :: xs).reverse ≠ [] := by simp
      obtain ⟨a, t1, ht⟩ : ∃ a t1, (x :: xs).reverse = a :: t1 := by
        cases hx : (x :: xs).reverse with
        | nil => exact absurd hx h1
        | cons a b => exact ⟨a, b, rfl⟩
      refine ⟨t1.reverse, a, ?_⟩
      rw [← List.reverse_reverse (x :: xs), ht, List.reverse_cons]
    have hz : z ∈ x :: xs := by rw [hlz]; simp
    rw [hlz] at hs
    rw [List.map_append, List.reverse_append] at hs
    simp only [List.map_cons, List.map_nil, List.reverse_cons, List.reverse_nil,
      List.nil_append, List.singleton_append] at hs
    obtain ⟨r, hr⟩ := joinSep_head_append '\n' z.reverse ((ys.map List.reverse).reverse)
    rw [hr] at hs
    obtain ⟨c0, zt, hzr⟩ : ∃ c0 zt, z.reverse = c0 :: zt := by
      cases hx : z.reverse with
      | nil =>
        exfalso
        have := (hg z hz).2.1
        rw [← List.reverse_reverse z, hx] at this
        simp at this
      | cons a b => exact ⟨a, b, rfl⟩
    have hcc : c = c0 := by
      rw [hzr] at hs
      injection hs with h1 h2
      exact h1.symm
    subst hcc
    apply getLast?_not_ws_of_trimmed (hg z hz).1
    rw [← List.head?_reverse, hzr]
    rfl

theorem splitOnNL_joinSep {ls : List (List Char)} (hne : ls ≠ [])
    (hg : ∀ l ∈ ls, '\n' ∉ l) :
    splitOnNL (joinSep '\n' ls) = ls := by
  induction ls with
  | nil => exact absurd rfl hne
  | cons l xs ih =>
    cases xs with
    | nil => exact splitOnNL_no_nl (hg l (List.mem_cons_self _ _))
    | cons l2 rest =>
      rw [joinSep_cons₂, splitOnNL_append_nl,
        splitOnNL_no_nl (hg l (List.mem_cons_self _ _)),
        ih (by simp) (fun x hx => hg x (List.mem_cons_of_mem _ hx))]
      rfl

theorem linesOf_joinSep {ls : List (List Char)} (hne : ls ≠ [])
    (hg : ∀ l ∈ ls, trimStr l = l ∧ l ≠ [] ∧ '\n' ∉ l) :
    linesOf (joinSep '\n' ls) = ls := by
  unfold linesOf
  rw [splitOnNL_joinSep hne (fun l hl => (hg l hl).2.2)]
  rw [List.map_congr_left (fun l hl => (hg l hl).1), List.map_id']
  rw [List.filter_eq_self.2 (fun l hl => by
    simp only [Bool.not_eq_true']
    cases hx : l.isEmpty
    · rfl
    · exact absurd (by simpa using hx) (hg l hl).2.1)]

theorem normalizeCRLF_joinSep {ls : List (List Char)}
    (hg : ∀ l ∈ ls, trimStr l = l ∧ l ≠ [] ∧ '\n' ∉ l) :
    normalizeCRLF (joinSep '\n' ls) = joinSep '\n' ls := by
  induction ls with
  | nil => rfl
  | cons l xs ih =>
    cases xs with
    | nil => exact normalizeCRLF_no_nl (hg l (List.mem_cons_self _ _)).2.2
    | cons l2 rest =>
      have hl := hg l (List.mem_cons_self _ _)
      have hlast : l.getLast? ≠ some '\r' := by
        intro hx
        have := getLast?_not_ws_of_trimmed hl.1 hx
        simp [isWS, wsChars] at this
      rw [joinSep_cons₂, normalizeCRLF_append_no_nl hl.2.2 hlast,
        normalizeCRLF_cons (by rintro ⟨hc, -⟩; cases hc),
        ih (fun x hx => hg x (List.mem_cons_of_mem _ hx))]

theorem joinSep_ne_nil {ls : List (List Char)} (hne : ls ≠ [])
    (hg : ∀ l ∈ ls, trimStr l = l ∧ l ≠ [] ∧ '\n' ∉ l) :
    joinSep '\n' ls ≠ [] := by
  obtain ⟨x, xs, rfl⟩ : ∃ x xs, ls = x :: xs := by
    cases hx : ls with
    | nil => exact absurd hx hne
    | cons a b => exact ⟨a, b, rfl⟩
  obtain ⟨r, hr⟩ := joinSep_head_append '\n' x xs
  rw [hr]
  have := (hg x (List.mem_cons_self _ _)).2.1
  cases x with
  | nil => exact absurd rfl this
  | cons a b => simp

theorem paragraphsOf_joinSep {ls : List (List Char)} (hne : ls ≠ [])
    (hg : ∀ l ∈ ls, trimStr l = l ∧ l ≠ [] ∧ '\n' ∉ l) :
    paragraphsOf (joinSep '\n' ls) = [joinSep '\n' ls] := by
  unfold paragraphsOf splitParas
  rw [normalizeCRLF_joinSep hg, trimStr_joinSep hne hg,
    paraScan_no_sep (joinSep_no_sep hg) []]
  simp only [List.reverse_nil, List.nil_append, List.map_cons, List.map_nil,
    trimStr_joinSep hne hg]
  rw [List.filter_cons]
  simp [joinSep_ne_nil hne hg]

theorem mem_linesOf_good (para : List Char) :
    ∀ l ∈ linesOf para, trimStr l = l ∧ l ≠ [] ∧ '\n' ∉ l :=
  fun _ hl => mem_linesOf_props hl

/-! ## The parser factors through per-unit classification -/

theorem flatMap_attach (l : List α) (f : α → List β) :
    l.attach.flatMap (fun x => f x.1) = l.flatMap f := by
  show (l.attach.map (fun x => f x.1)).flatten = (l.map f).flatten
  rw [List.attach_map_val l f]

theorem flatMap_congr_mem {l : List α} {f g : α → List β}
    (h : ∀ a ∈ l, f a = g a) : l.flatMap f = l.flatMap g := by
  show (l.map f).flatten = (l.map g).flatten
  rw [List.map_congr_left h]

theorem parse_unfold (text : List Char) :
    parseAssistantTextToNodes text
      = if text.isEmpty then []
        else (paragraphsOf text).flatMap (fun para =>
          if 1 < (linesOf para).length ∧
              hasTrailingColonWS ((linesOf para).headD []) = true then
            Block.heading (stripTrailingColonWS ((linesOf para).headD []))
              :: parseAssistantTextToNodes (joinSep '\n' ((linesOf para).drop 1))
          else [classifyUnit (linesOf para)]) := by
  by_cases ht : text.isEmpty
  · rw [parseAssistantTextToNodes]
    simp [ht]
  · rw [parseAssistantTextToNodes]
    simp only [ht, Bool.false_eq_true, if_false]
    simp only [dite_eq_ite]
    exact flatMap_attach (paragraphsOf text) (fun para =>
      if 1 < (linesOf para).length ∧
          hasTrailingColonWS ((linesOf para).headD []) = true then
        Block.heading (stripTrailingColonWS ((linesOf para).headD []))
          :: parseAssistantTextToNodes (joinSep '\n' ((linesOf para).drop 1))
      else [classifyUnit (linesOf para)])

theorem parseFast_joinSep {ls : List (List Char)} (hne : ls ≠ [])
    (hg : ∀ l ∈ ls, trimStr l = l ∧ l ≠ [] ∧ '\n' ∉ l) :
    parseFast (joinSep '\n' ls) = parseLines ls := by
  unfold parseFast
  rw [paragraphsOf_joinSep hne hg]
  rw [List.flatMap_cons, linesOf_joinSep hne hg]
  simp

theorem paragraphsOf_nil : paragraphsOf [] = [] := by
  unfold paragraphsOf splitParas
  rw [show trimStr (normalizeCRLF []) = [] from rfl, paraScan_nil]
  rfl

theorem parse_eq_aux : ∀ n : Nat, ∀ t : List Char, t.length ≤ n →
    parseAssistantTextToNodes t = parseFast t := by
  intro n
  induction n with
  | zero =>
    intro t h
    have ht : t = [] := by
      cases t with
      | nil => rfl
      | cons a b => simp at h
    subst ht
    rw [parse_unfold]
    simp only [List.isEmpty_nil, if_true]
    unfold parseFast
    rw [paragraphsOf_nil]
    rfl
  | succ n ih =>
    intro t hlen
    by_cases ht : t.isEmpty
    · have ht' : t = [] := by
        cases t with
        | nil => rfl
        | cons a b => simp at ht
      subst ht'
      rw [parse_unfold]
      simp only [List.isEmpty_nil, if_true]
      unfold parseFast
      rw [paragraphsOf_nil]
      rfl
    · rw [parse_unfold, if_neg (by simpa using ht)]
      unfold parseFast
      apply flatMap_congr_mem
      intro para hp
      have hgood := mem_linesOf_good para
      by_cases hc : 1 < (linesOf para).length ∧
          hasTrailingColonWS ((linesOf para).headD []) = true
      · rw [if_pos hc]
        obtain ⟨l0, l1, rest, hl⟩ : ∃ l0 l1 rest,
            linesOf para = l0 :: l1 :: rest := by
          have := hc.1
          cases hx : linesOf para with
          | nil => rw [hx] at this; simp at this
          | cons a b =>
            cases hy : b with
            | nil =>
              subst hy
              rw [hx] at this
              simp at this
            | cons a2 b2 =>
              subst hy
              exact ⟨a, a2, b2, rfl⟩
        have hcolon : hasTrailingColonWS l0 = true := by
          have := hc.2
          rw [hl] at this
          exact this
        have hdec := parse_decreasing hp hc.1
        rw [hl]
        simp only [List.drop_one, List.tail_cons]
        rw [show parseLines (l0 :: l1 :: rest)
            = Block.heading (stripTrailingColonWS l0) :: parseLines (l1 :: rest) by
          rw [parseLines.eq_def]
          simp [hcolon]]
        simp only [List.headD_cons]
        congr 1
        have hglr : ∀ l ∈ l1 :: rest, trimStr l = l ∧ l ≠ [] ∧ '\n' ∉ l := by
          intro l hlmem
          exact hgood l (by rw [hl]; exact List.mem_cons_of_mem _ hlmem)
        have hlenle : (joinSep '\n' (l1 :: rest)).length ≤ n := by
          rw [hl] at hdec
          simp only [List.drop_one, List.tail_cons] at hdec
          omega
        rw [ih _ hlenle]
        exact parseFast_joinSep (by simp) hglr
      · rw [if_neg hc]
        cases hx : linesOf para with
        | nil => rfl
        | cons a b =>
          cases hy : b with
          | nil => rfl
          | cons a2 b2 =>
            have hcolon : ¬hasTrailingColonWS a = true := by
              intro hcol
              apply hc
              rw [hx, hy]
              exact ⟨by simp, hcol⟩
            rw [parseLines.eq_def]
            simp [hcolon]

/-- The parser equals its structural per-unit form. -/
theorem parse_eq_parseFast (t : List Char) :
    parseAssistantTextToNodes t = parseFast t :=
  parse_eq_aux t.length t (Nat.le_refl _)

/-- Fully computable form of the parser, for concrete evaluation. -/
def parseEval (text : List Char) : List Block :=
  (paragraphsOfC text).flatMap (fun para => parseLines (linesOf para))

theorem parse_eq_parseEval (t : List Char) :
    parseAssistantTextToNodes t = parseEval t := by
  rw [parse_eq_parseFast]
  unfold parseFast parseEval
  rw [paragraphsOfC_eq]

theorem parseA_eval (t : List Char) :
    parseA t = (paragraphsOfC t).flatMap (fun para => parseLinesA (linesOf para)) := by
  unfold parseA
  rw [paragraphsOfC_eq]

/-! ## Item/group correspondence and line accounting -/

theorem appendToLastGroup_ne_nil_mem {acc : List (List (List Char))} {l : List Char}
    (h : ∀ g ∈ acc, g ≠ []) : ∀ g ∈ appendToLastGroup acc l, g ≠ [] := by
  induction acc with
  | nil => intro g hg; simp [appendToLastGroup] at hg
  | cons g0 rest ih =>
    intro g hg
    cases rest with
    | nil =>
      simp only [appendToLastGroup, List.mem_singleton] at hg
      subst hg
      simp
    | cons g1 rest' =>
      rw [show appendToLastGroup (g0 :: g1 :: rest') l
          = g0 :: appendToLastGroup (g1 :: rest') l from rfl] at hg
      rcases List.mem_cons.1 hg with h2 | h2
      · rw [h2]; exact h g0 (List.mem_cons_self _ _)
      · exact ih (fun x hx => h x (List.mem_cons_of_mem _ hx)) g h2

theorem mem_buildGroupsGo_ne_nil {isM : List Char → Bool} :
    ∀ (ls : List (List Char)) (acc : List (List (List Char))),
      (∀ g ∈ acc, g ≠ []) → ∀ g ∈ buildGroupsGo isM acc ls, g ≠ [] := by
  intro ls
  induction ls with
  | nil => intro acc h g hg; exact h g hg
  | cons l ls' ih =>
    intro acc h g hg
    rw [buildGroupsGo] at hg
    by_cases hm : isM l
    · rw [if_pos hm] at hg
      refine ih (acc ++ [[l]]) ?_ g hg
      intro x hx
      rcases List.mem_append.1 hx with h2 | h2
      · exact h x h2
      · simp only [List.mem_singleton] at h2; subst h2; simp
    · rw [if_neg hm] at hg
      exact ih _ (appendToLastGroup_ne_nil_mem h) g hg

theorem itemText_append_last {stripM : List Char → List Char} {g : List (List Char)}
    (hg : g ≠ []) (l : List Char) :
    itemText stripM (g ++ [l]) = itemText stripM g ++ ' ' :: l := by
  cases g with
  | nil => exact absurd rfl hg
  | cons x xs =>
    show joinSep ' ' (stripM x :: (xs ++ [l])) = joinSep ' ' (stripM x :: xs) ++ ' ' :: l
    rw [show stripM x :: (xs ++ [l]) = (stripM x :: xs) ++ [l] from rfl]
    exact joinSep_append_single ' ' l (stripM x :: xs) (by simp)

theorem appendToLast_map_itemText {stripM : List Char → List Char} :
    ∀ (gs : List (List (List Char))) (l : List Char), (∀ g ∈ gs, g ≠ []) →
      appendToLast (gs.map (itemText stripM)) l
        = (appendToLastGroup gs l).map (itemText stripM) := by
  intro gs
  induction gs with
  | nil => intro l h; rfl
  | cons g rest ih =>
    intro l h
    cases rest with
    | nil =>
      show [itemText stripM g ++ ' ' :: l] = [itemText stripM (g ++ [l])]
      rw [itemText_append_last (h g (List.mem_cons_self _ _)) l]
    | cons g2 rest' =>
      show itemText stripM g :: appendToLast ((g2 :: rest').map (itemText stripM)) l
        = itemText stripM g :: ((appendToLastGroup (g2 :: rest') l).map (itemText stripM))
      rw [ih l (fun x hx => h x (List.mem_cons_of_mem _ hx))]

theorem buildItemsGo_eq_groups {isM : List Char → Bool}
    {stripM : List Char → List Char} :
    ∀ (ls : List (List Char)) (accG : List (List (List Char))),
      (∀ g ∈ accG, g ≠ []) →
      buildItemsGo isM stripM (accG.map (itemText stripM)) ls
        = (buildGroupsGo isM accG ls).map (itemText stripM) := by
  intro ls
  induction ls with
  | nil => intro accG h; rfl
  | cons l ls' ih =>
    intro accG h
    rw [buildItemsGo, buildGroupsGo]
    by_cases hm : isM l
    · rw [if_pos hm, if_pos hm]
      rw [show accG.map (itemText stripM) ++ [stripM l]
          = (accG ++ [[l]]).map (itemText stripM) by
        rw [List.map_append]; rfl]
      refine ih (accG ++ [[l]]) ?_
      intro x hx
      rcases List.mem_append.1 hx with h2 | h2
      · exact h x h2
      · simp only [List.mem_singleton] at h2; subst h2; simp
    · rw [if_neg hm, if_neg hm]
      rw [appendToLast_map_itemText accG l h]
      exact ih _ (appendToLastGroup_ne_nil_mem h)

theorem buildItems_eq_groups (isM : List Char → Bool)
    (stripM : List Char → List Char) (lines : List (List Char)) :
    buildItems isM stripM lines = (buildGroups isM lines).map (itemText stripM) :=
  buildItemsGo_eq_groups lines [] (by simp)

theorem appendToLastGroup_ne_nil {acc : List (List (List Char))} (h : acc ≠ [])
    (l : List Char) : appendToLastGroup acc l ≠ [] := by
  cases acc with
  | nil => exact absurd rfl h
  | cons g rest =>
    cases rest with
    | nil => simp [appendToLastGroup]
    | cons g2 rest' => simp [appendToLastGroup]

theorem appendToLastGroup_flatten :
    ∀ (acc : List (List (List Char))), acc ≠ [] → ∀ l,
      (appendToLastGroup acc l).flatten = acc.flatten ++ [l] := by
  intro acc
  induction acc with
  | nil => intro h; exact absurd rfl h
  | cons g rest ih =>
    intro _ l
    cases rest with
    | nil => simp [appendToLastGroup]
    | cons g2 rest' =>
      rw [show appendToLastGroup (g :: g2 :: rest') l
          = g :: appendToLastGroup (g2 :: rest') l from rfl]
      rw [List.flatten_cons, List.flatten_cons, ih (by simp) l,
        List.append_assoc]

theorem buildGroupsGo_flatten {isM : List Char → Bool} :
    ∀ (ls : List (List Char)) (acc : List (List (List Char))), acc ≠ [] →
      (buildGroupsGo isM acc ls).flatten = acc.flatten ++ ls := by
  intro ls
  induction ls with
  | nil => intro acc h; simp [buildGroupsGo]
  | cons l ls' ih =>
    intro acc h
    rw [buildGroupsGo]
    by_cases hm : isM l
    · rw [if_pos hm, ih (acc ++ [[l]]) (by simp)]
      simp
    · rw [if_neg hm, ih _ (appendToLastGroup_ne_nil h l),
        appendToLastGroup_flatten acc h l]
      simp

theorem buildGroups_flatten (isM : List Char → Bool) :
    ∀ ls : List (List Char),
      (buildGroups isM ls).flatten = ls.dropWhile (fun l => !isM l) := by
  intro ls
  induction ls with
  | nil => rfl
  | cons l ls' ih =>
    unfold buildGroups at *
    rw [buildGroupsGo, List.dropWhile_cons]
    by_cases hm : isM l
    · rw [if_pos hm, if_neg (by simp [hm]), List.nil_append,
        buildGroupsGo_flatten ls' [[l]] (by simp)]
      simp
    · rw [if_neg hm, if_pos (by simp [hm])]
      exact ih

theorem linesFull_classifyUnitA (lines : List (List Char)) :
    linesFull (classifyUnitA lines) = lines := by
  unfold classifyUnitA
  split_ifs with h1 h2 h3 <;>
    simp only [linesFull, buildGroups_flatten, List.takeWhile_append_dropWhile]

theorem parseLinesA_cons₂ (l0 l1 : List Char) (rest : List (List Char)) :
    parseLinesA (l0 :: l1 :: rest)
      = if hasTrailingColonWS l0 then ABlock.heading l0 :: parseLinesA (l1 :: rest)
        else [classifyUnitA (l0 :: l1 :: rest)] := rfl

theorem parseLines_cons₂ (l0 l1 : List Char) (rest : List (List Char)) :
    parseLines (l0 :: l1 :: rest)
      = if hasTrailingColonWS l0 then
          Block.heading (stripTrailingColonWS l0) :: parseLines (l1 :: rest)
        else [classifyUnit (l0 :: l1 :: rest)] := rfl

theorem parseLinesA_flatMap_linesFull (ls : List (List Char)) :
    (parseLinesA ls).flatMap linesFull = ls := by
  induction ls using parseLinesA.induct with
  | case1 => simp [parseLinesA, linesFull_classifyUnitA]
  | case2 l => simp [parseLinesA, linesFull_classifyUnitA]
  | case3 l0 l1 rest hcol ih =>
    rw [parseLinesA_cons₂, if_pos hcol, List.flatMap_cons, ih]
    rfl
  | case4 l0 l1 rest hcol =>
    rw [parseLinesA_cons₂, if_neg hcol]
    simp [linesFull_classifyUnitA]

theorem classifyUnit_eq_renderA (lines : List (List Char)) :
    classifyUnit lines = renderA (classifyUnitA lines) := by
  unfold classifyUnit classifyUnitA
  split_ifs with h1 h2 h3 <;>
    simp only [renderA, buildItems_eq_groups]

theorem parseLines_eq_renderA (ls : List (List Char)) :
    parseLines ls = (parseLinesA ls).map renderA := by
  induction ls using parseLinesA.induct with
  | case1 => simp [parseLines, parseLinesA, classifyUnit_eq_renderA]
  | case2 l => simp [parseLines, parseLinesA, classifyUnit_eq_renderA]
  | case3 l0 l1 rest hcol ih =>
    rw [parseLines_cons₂, parseLinesA_cons₂, if_pos hcol, if_pos hcol,
      List.map_cons, ih]
    rfl
  | case4 l0 l1 rest hcol =>
    rw [parseLines_cons₂, parseLinesA_cons₂, if_neg hcol, if_neg hcol]
    simp [classifyUnit_eq_renderA]

/-! ## String-level accounting -/

theorem flatMap_filter_eq {α β : Type} {p : α → Bool} {l : List α} {f : α → List β}
    (h : ∀ a ∈ l, p a = false → f a = []) :
    (l.filter p).flatMap f = l.flatMap f := by
  induction l with
  | nil => rfl
  | cons a l' ih =>
    rw [List.filter_cons]
    by_cases hp : p a = true
    · rw [if_pos hp, List.flatMap_cons, List.flatMap_cons,
        ih (fun x hx hpx => h x (List.mem_cons_of_mem _ hx) hpx)]
    · rw [if_neg (by simpa using hp), List.flatMap_cons,
        h a (List.mem_cons_self _ _) (by simpa using hp),
        ih (fun x hx hpx => h x (List.mem_cons_of_mem _ hx) hpx)]
      rfl

theorem flatMap_map_eq {α β γ : Type} (g : α → β) (f : β → List γ) (l : List α) :
    (l.map g).flatMap f = l.flatMap (fun a => f (g a)) := by
  induction l with
  | nil => rfl
  | cons a l' ih => rw [List.map_cons, List.flatMap_cons, List.flatMap_cons, ih]

theorem paragraphsOf_flatMap_linesOf (t : List Char) :
    (paragraphsOf t).flatMap linesOf = inputLines t := by
  unfold paragraphsOf inputLines
  rw [flatMap_filter_eq (by
    intro a ha hpa
    have : a.isEmpty = true := by simpa using hpa
    have : a = [] := by simpa using this
    rw [this]
    exact linesOf_nil)]
  rw [flatMap_map_eq]
  rw [flatMap_congr_mem (fun a _ => linesOf_trimStr a)]
  unfold splitParas
  rw [paraScan_flatMap_linesOf [] (trimStr (normalizeCRLF t))]
  rw [show ([] : List Char).reverse ++ trimStr (normalizeCRLF t)
      = trimStr (normalizeCRLF t) from rfl]
  exact linesOf_trimStr (normalizeCRLF t)

theorem parseA_flatMap_linesFull (t : List Char) :
    (parseA t).flatMap linesFull = inputLines t := by
  unfold parseA
  rw [show ((paragraphsOf t).flatMap fun para => parseLinesA (linesOf para)).flatMap
        linesFull
      = (paragraphsOf t).flatMap
          (fun para => (parseLinesA (linesOf para)).flatMap linesFull) by
    rw [List.flatMap_assoc]]
  rw [flatMap_congr_mem (fun para _ => parseLinesA_flatMap_linesFull (linesOf para))]
  exact paragraphsOf_flatMap_linesOf t

theorem parse_eq_map_renderA (t : List Char) :
    parseAssistantTextToNodes t = (parseA t).map renderA := by
  rw [parse_eq_parseFast]
  unfold parseFast parseA
  rw [List.map_flatMap]
  exact flatMap_congr_mem (fun para _ => parseLines_eq_renderA (linesOf para))

/-! ## Empty output characterization -/

theorem parseLines_ne_nil (ls : List (List Char)) : parseLines ls ≠ [] := by
  induction ls using parseLines.induct with
  | case1 => simp [parseLines]
  | case2 l => simp [parseLines]
  | case3 l0 l1 rest hcol ih => rw [parseLines_cons₂, if_pos hcol]; simp
  | case4 l0 l1 rest hcol => rw [parseLines_cons₂, if_neg hcol]; simp

theorem mem_of_mem_normalizeCRLF {c : Char} :
    ∀ {s : List Char}, c ∈ normalizeCRLF s → c ∈ s := by
  intro s
  induction s using normalizeCRLF.induct with
  | case1 rest ih =>
    intro h
    rw [show normalizeCRLF ('\r' :: '\n' :: rest) = '\n' :: normalizeCRLF rest
      from rfl] at h
    rcases List.mem_cons.1 h with h2 | h2
    · subst h2; exact List.mem_cons_of_mem _ (List.mem_cons_self _ _)
    · exact List.mem_cons_of_mem _ (List.mem_cons_of_mem _ (ih h2))
  | case2 c' rest hne ih =>
    intro h
    rw [show normalizeCRLF (c' :: rest) = c' :: normalizeCRLF rest by
      rw [normalizeCRLF.eq_def]; split <;> simp_all] at h
    rcases List.mem_cons.1 h with h2 | h2
    · subst h2; exact List.mem_cons_self _ _
    · exact List.mem_cons_of_mem _ (ih h2)
  | case3 => intro h; simp [normalizeCRLF] at h

theorem mem_normalizeCRLF_of_not_ws {c : Char} (hc : isWS c = false) :
    ∀ {s : List Char}, c ∈ s → c ∈ normalizeCRLF s := by
  intro s
  induction s using normalizeCRLF.induct with
  | case1 rest ih =>
    intro h
    rw [show normalizeCRLF ('\r' :: '\n' :: rest) = '\n' :: normalizeCRLF rest
      from rfl]
    rcases List.mem_cons.1 h with h2 | h2
    · rw [h2] at hc; simp [isWS, wsChars] at hc
    · rcases List.mem_cons.1 h2 with h3 | h3
      · rw [h3] at hc; simp [isWS, wsChars] at hc
      · exact List.mem_cons_of_mem _ (ih h3)
  | case2 c' rest hne ih =>
    intro h
    rw [show normalizeCRLF (c' :: rest) = c' :: normalizeCRLF rest by
      rw [normalizeCRLF.eq_def]; split <;> simp_all]
    rcases List.mem_cons.1 h with h2 | h2
    · subst h2; exact List.mem_cons_self _ _
    · exact List.mem_cons_of_mem _ (ih h2)
  | case3 => intro h; simp at h

theorem mem_splitOnNL_exists {c : Char} (hc : ¬c = '\n') :
    ∀ {s : List Char}, c ∈ s → ∃ p ∈ splitOnNL s, c ∈ p := by
  intro s
  induction s using splitOnNL.induct with
  | case1 => intro h; simp at h
  | case2 rest ih =>
    intro h
    rcases List.mem_cons.1 h with h2 | h2
    · exact absurd h2 hc
    · obtain ⟨p, hp, hcp⟩ := ih h2
      exact ⟨p, by rw [splitOnNL_cons_nl]; exact List.mem_cons_of_mem _ hp, hcp⟩
  | case3 c' rest hne q qs hq ih =>
    intro h
    rcases List.mem_cons.1 h with h2 | h2
    · refine ⟨c' :: q, ?_, by rw [h2]; exact List.mem_cons_self _ _⟩
      rw [splitOnNL_cons c' rest hne q qs hq]
      exact List.mem_cons_self _ _
    · obtain ⟨p, hp, hcp⟩ := ih h2
      rw [hq] at hp
      rcases List.mem_cons.1 hp with h3 | h3
      · refine ⟨c' :: q, ?_, by rw [← h3]; exact List.mem_cons_of_mem _ hcp⟩
        rw [splitOnNL_cons c' rest hne q qs hq]
        exact List.mem_cons_self _ _
      · refine ⟨p, ?_, hcp⟩
        rw [splitOnNL_cons c' rest hne q qs hq]
        exact List.mem_cons_of_mem _ h3
  | case4 c' rest hne hq ih => exact absurd hq (splitOnNL_ne_nil rest)

theorem linesOf_ne_nil_of_mem {c : Char} {s : List Char} (h : c ∈ s)
    (hc : isWS c = false) : linesOf s ≠ [] := by
  have hcnl : ¬c = '\n' := by
    intro hx
    rw [hx] at hc
    simp [isWS, wsChars] at hc
  obtain ⟨p, hp, hcp⟩ := mem_splitOnNL_exists hcnl h
  have h1 : c ∈ trimStr p := mem_trimStr_of_mem hcp hc
  have h2 : trimStr p ≠ [] := by
    intro hx
    rw [hx] at h1
    simp at h1
  intro hx
  unfold linesOf at hx
  rw [List.filter_eq_nil_iff] at hx
  exact h2 (by
    have := hx (trimStr p) (List.mem_map_of_mem trimStr hp)
    simpa using this)

theorem flatMap_nil_iff {α β : Type} {l : List α} {f : α → List β} :
    l.flatMap f = [] ↔ ∀ a ∈ l, f a = [] := by
  induction l with
  | nil => simp
  | cons a l' ih =>
    rw [List.flatMap_cons, List.append_eq_nil]
    constructor
    · rintro ⟨h1, h2⟩ x hx
      rcases List.mem_cons.1 hx with h3 | h3
      · rw [h3]; exact h1
      · exact ih.1 h2 x h3
    · intro h
      exact ⟨h a (List.mem_cons_self _ _),
        ih.2 (fun x hx => h x (List.mem_cons_of_mem _ hx))⟩

theorem paragraphsOf_ne_nil {t : List Char} {c : Char} (h : c ∈ t)
    (hc : isWS c = false) : paragraphsOf t ≠ [] := by
  have h1 : c ∈ normalizeCRLF t := mem_normalizeCRLF_of_not_ws hc h
  have h2 : c ∈ trimStr (normalizeCRLF t) := mem_trimStr_of_mem h1 hc
  have h3 : linesOf (trimStr (normalizeCRLF t)) ≠ [] :=
    linesOf_ne_nil_of_mem h2 hc
  have h4 : (splitParas (trimStr (normalizeCRLF t))).flatMap linesOf
      = linesOf (trimStr (normalizeCRLF t)) := by
    unfold splitParas
    rw [paraScan_flatMap_linesOf]
    rfl
  have h5 : ∃ q ∈ splitParas (trimStr (normalizeCRLF t)), linesOf q ≠ [] := by
    by_contra hx
    push_neg at hx
    apply h3
    rw [← h4, flatMap_nil_iff]
    intro a ha
    by_contra hy
    exact hy (hx a ha)
  obtain ⟨q, hq, hlq⟩ := h5
  have h6 : trimStr q ≠ [] := by
    intro hx
    exact hlq (linesOf_allWS (allWS_of_trimStr_eq_nil hx))
  intro hx
  unfold paragraphsOf at hx
  rw [List.filter_eq_nil_iff] at hx
  have := hx (trimStr q) (List.mem_map_of_mem trimStr hq)
  simp only [Bool.not_eq_true'] at this
  rw [← Bool.not_eq_true] at this
  exact this (by simpa using h6)

theorem paragraphsOf_eq_nil_of_allWS {t : List Char}
    (h : ∀ c ∈ t, isWS c = true) : paragraphsOf t = [] := by
  have h1 : ∀ c ∈ normalizeCRLF t, isWS c = true :=
    fun c hc => h c (mem_of_mem_normalizeCRLF hc)
  have h2 : trimStr (normalizeCRLF t) = [] := trimStr_allWS h1
  unfold paragraphsOf splitParas
  rw [h2, paraScan_nil]
  rfl

/-! ## Claim theorems -/

/-- C1: the formatter `parseAssistantTextToNodes` is a total Lean function
(its termination is established by the well-founded recursion above), and it
returns the empty block sequence exactly on empty or all-whitespace input:
for every input, the output is empty iff every character is whitespace. -/
theorem claim_formatter_total_blank (t : List Char) :
    parseAssistantTextToNodes t = [] ↔ ∀ c ∈ t, isWS c = true := by
  constructor
  · intro h
    by_contra hx
    push_neg at hx
    obtain ⟨c, hc, hws⟩ := hx
    rw [parse_eq_parseFast] at h
    unfold parseFast at h
    rw [flatMap_nil_iff] at h
    have hpar := paragraphsOf_ne_nil hc (by simpa using hws)
    obtain ⟨para, hpara⟩ : ∃ para, para ∈ paragraphsOf t := by
      cases hy : paragraphsOf t with
      | nil => exact absurd hy hpar
      | cons a b => exact ⟨a, hy ▸ List.mem_cons_self a b⟩
    exact parseLines_ne_nil (linesOf para) (h para hpara)
  · intro h
    rw [parse_eq_parseFast]
    unfold parseFast
    rw [paragraphsOf_eq_nil_of_allWS h]
    rfl

/-- C2 (counterexample): the claim says every non-empty line of the input
appears in exactly one produced block; on `"intro\n1. foo"` the leading
continuation line `"intro"` precedes the first numbered item, the unit is
classified as an ordered list, and the line is silently dropped: the output
is a single list whose only item is `"foo"`, and the annotated parse
accounts only for the line `"1. foo"`. -/
theorem claim_partition_counterexample :
    inputLines (chars "intro\n1. foo") = [chars "intro", chars "1. foo"] ∧
    parseAssistantTextToNodes (chars "intro\n1. foo")
      = [Block.orderedList [chars "foo"]] ∧
    (parseA (chars "intro\n1. foo")).flatMap linesUsed = [chars "1. foo"] := by
  refine ⟨by decide, ?_, ?_⟩
  · rw [parse_eq_parseEval]; decide
  · rw [parseA_eval]; decide

/-- C2 (amended): the formatter partitions the input's non-empty trimmed
lines without loss *except* that, in a unit classified as a list, the
continuation lines preceding the first marker line are dropped.  Formally:
the parse factors through the annotated parse (`parseA`, which records each
block's consumed line groups and each list unit's dropped leading lines) via
the erasure `renderA`, and the in-order concatenation of every block's full
line account (dropped prefix plus item groups) is exactly the list of the
input's non-empty trimmed lines. -/
theorem claim_partition_amended (t : List Char) :
    parseAssistantTextToNodes t = (parseA t).map renderA ∧
    (parseA t).flatMap linesFull = inputLines t :=
  ⟨parse_eq_map_renderA t, parseA_flatMap_linesFull t⟩

/-- C3: for every paragraph unit with more than one line whose first line
ends with a colon (plus optional whitespace), the formatter emits a Heading
with the colon stripped, immediately followed by the blocks of the recursive
parse of the remaining lines re-joined with newlines (the unfolding equation
below holds for every input); and
`format "Steps:\n1. Cleanse\n2. Moisturize" =
 [Heading "Steps", OrderedList ["Cleanse", "Moisturize"]]`. -/
theorem claim_heading_rule :
    (∀ t : List Char,
      parseAssistantTextToNodes t
        = (paragraphsOf t).flatMap (fun para =>
            if 1 < (linesOf para).length ∧
                hasTrailingColonWS ((linesOf para).headD []) = true then
              Block.heading (stripTrailingColonWS ((linesOf para).headD []))
                :: parseAssistantTextToNodes (joinSep '\n' ((linesOf para).drop 1))
            else [classifyUnit (linesOf para)])) ∧
    parseAssistantTextToNodes (chars "Steps:\n1. Cleanse\n2. Moisturize")
      = [Block.heading (chars "Steps"),
         Block.orderedList [chars "Cleanse", chars "Moisturize"]] := by
  constructor
  · intro t
    rw [parse_unfold]
    by_cases ht : t.isEmpty
    · have ht' : t = [] := by
        cases t with
        | nil => rfl
        | cons a b => simp at ht
      subst ht'
      rw [paragraphsOf_nil]
      simp
    · rw [if_neg (by simpa using ht)]
  · rw [parse_eq_parseEval]; decide

/-- C4 (counterexample): the claim's step pattern requires whitespace between
the word Step and the digits, but the code's regex has `Step\s*\d+` —
whitespace optional.  On `"Step1: Cleanse\nStep2: Tone"` no line matches the
claim's pattern (so by the claim the unit would not be step-classified and
would fall through to a single paragraph), yet the code classifies it as an
ordered list with the markers stripped. -/
theorem claim_step_rule_counterexample :
    ((inputLines (chars "Step1: Cleanse\nStep2: Tone")).filter specStepLine).length
      = 0 ∧
    parseAssistantTextToNodes (chars "Step1: Cleanse\nStep2: Tone")
      = [Block.orderedList [chars "Cleanse", chars "Tone"]] ∧
    parseAssistantTextToNodes (chars "Step1: Cleanse\nStep2: Tone")
      ≠ [Block.paragraph
          (joinSep ' ' (inputLines (chars "Step1: Cleanse\nStep2: Tone")))] := by
  refine ⟨by decide, ?_, ?_⟩
  · rw [parse_eq_parseEval]; decide
  · rw [parse_eq_parseEval]; decide

/-- C4 (amended): with the code's pattern (whitespace after `Step` optional,
i.e. `isStepLine`), for every unit not classified by the numbered or
bulleted rules: if at least 2 lines match, the unit classifies as a single
OrderedList whose items are the marker-stripped matching lines with
non-matching lines space-appended to the most recently started item (dropped
when no item exists yet) — expressed through the independent group
construction `buildGroups`/`itemText`; with fewer than 2 matching lines the
unit is not step-classified and falls through to the paragraph rule.  The
spec's own example `format "Step 1: Cleanse\nStep 2: Tone"` gives one
OrderedList with the markers stripped. -/
theorem claim_step_rule_amended :
    (∀ lines : List (List Char),
      ¬(1 ≤ (lines.filter isNumberedLine).length ∧
          ¬1 ≤ (lines.filter isBulletLine).length) →
      ¬(1 ≤ (lines.filter isBulletLine).length ∧
          ¬1 ≤ (lines.filter isNumberedLine).length) →
      (2 ≤ (lines.filter isStepLine).length →
        classifyUnit lines
          = Block.orderedList ((buildGroups isStepLine lines).map (itemText stripStep))) ∧
      ((lines.filter isStepLine).length < 2 →
        classifyUnit lines = Block.paragraph (joinSep ' ' lines))) ∧
    parseAssistantTextToNodes (chars "Step 1: Cleanse\nStep 2: Tone")
      = [Block.orderedList [chars "Cleanse", chars "Tone"]] := by
  constructor
  · intro lines h1 h2
    constructor
    · intro h3
      unfold classifyUnit
      rw [if_neg h1, if_neg h2, if_pos h3, buildItems_eq_groups]
    · intro h3
      unfold classifyUnit
      rw [if_neg h1, if_neg h2, if_neg (by omega)]
  · rw [parse_eq_parseEval]; decide

/-- Witness for C4 (amended) at a concrete unit: two step lines, neither
numbered nor bulleted, classify as the ordered list of their stripped
texts. -/
theorem claim_step_rule_amended_witness :
    classifyUnit [chars "Step 1: Cleanse", chars "Step 2: Tone"]
      = Block.orderedList
          ((buildGroups isStepLine [chars "Step 1: Cleanse", chars "Step 2: Tone"]).map
            (itemText stripStep)) :=
  (claim_step_rule_amended.1 [chars "Step 1: Cleanse", chars "Step 2: Tone"]
    (by decide) (by decide)).1 (by decide)

/-- C5 (counterexample): `"A:\nb"` has no blank-line separator and no line
matching a numbered, bulleted, or step marker pattern, yet the formatter
does not return one Paragraph of the space-joined lines: the heading rule
fires and the output is `[Heading "A", Paragraph "b"]`. -/
theorem claim_fallback_counterexample :
    hasParaSepB (trimStr (normalizeCRLF (chars "A:\nb"))) = false ∧
    (∀ l ∈ inputLines (chars "A:\nb"),
      isNumberedLine l = false ∧ isBulletLine l = false ∧ isStepLine l = false) ∧
    parseAssistantTextToNodes (chars "A:\nb")
      = [Block.heading (chars "A"), Block.paragraph (chars "b")] ∧
    parseAssistantTextToNodes (chars "A:\nb")
      ≠ [Block.paragraph (joinSep ' ' (inputLines (chars "A:\nb")))] := by
  refine ⟨by decide, by decide, ?_, ?_⟩
  · rw [parse_eq_parseEval]; decide
  · rw [parse_eq_parseEval]; decide

/-- C5 (amended): for every input with no blank-line paragraph separator (no
match of `\n\s*\n` in the normalized trimmed text), at least one
non-whitespace character, no line matching a numbered, bulleted, or step
marker pattern, and which is not captured by the heading rule (more than one
line with the first ending in a colon), the formatter returns exactly one
Paragraph containing all non-empty trimmed lines joined with single
spaces. -/
theorem claim_fallback_amended (t : List Char)
    (h1 : hasParaSepB (trimStr (normalizeCRLF t)) = false)
    (h2 : ∃ c ∈ t, isWS c = false)
    (h3 : ∀ l ∈ inputLines t,
      isNumberedLine l = false ∧ isBulletLine l = false ∧ isStepLine l = false)
    (h4 : ¬(1 < (inputLines t).length ∧
      hasTrailingColonWS ((inputLines t).headD []) = true)) :
    parseAssistantTextToNodes t = [Block.paragraph (joinSep ' ' (inputLines t))] := by
  obtain ⟨c, hc, hws⟩ := h2
  have hcs : c ∈ trimStr (normalizeCRLF t) :=
    mem_trimStr_of_mem (mem_normalizeCRLF_of_not_ws hws hc) hws
  have hsne : trimStr (normalizeCRLF t) ≠ [] := by
    intro hx
    rw [hx] at hcs
    simp at hcs
  have hpar : paragraphsOf t = [trimStr (normalizeCRLF t)] := by
    unfold paragraphsOf splitParas
    rw [paraScan_no_sep h1 []]
    simp only [List.reverse_nil, List.nil_append, List.map_cons, List.map_nil,
      trimStr_idem]
    rw [List.filter_cons]
    simp [hsne]
  have hlines : linesOf (trimStr (normalizeCRLF t)) = inputLines t :=
    linesOf_trimStr (normalizeCRLF t)
  have hcl : classifyUnit (inputLines t)
      = Block.paragraph (joinSep ' ' (inputLines t)) := by
    unfold classifyUnit
    have e1 : (inputLines t).filter isNumberedLine = [] :=
      List.filter_eq_nil_iff.2 (fun l hl => by simp [(h3 l hl).1])
    have e2 : (inputLines t).filter isBulletLine = [] :=
      List.filter_eq_nil_iff.2 (fun l hl => by simp [(h3 l hl).2.1])
    have e3 : (inputLines t).filter isStepLine = [] :=
      List.filter_eq_nil_iff.2 (fun l hl => by simp [(h3 l hl).2.2])
    rw [e1, e2, e3]
    simp
  rw [parse_eq_parseFast]
  unfold parseFast
  rw [hpar, List.flatMap_cons, hlines]
  simp only [List.flatMap_nil, List.append_nil]
  cases hx : inputLines t with
  | nil => decide
  | cons l0 b =>
    cases hy : b with
    | nil =>
      subst hy
      rw [show parseLines [l0] = [classifyUnit [l0]] from rfl, ← hx, hcl]
    | cons l1 rest =>
      subst hy
      have hcolon : ¬hasTrailingColonWS l0 = true := by
        intro hcol
        exact h4 ⟨by rw [hx]; simp, by rw [hx]; exact hcol⟩
      rw [parseLines_cons₂, if_neg hcolon, ← hx, hcl]

/-- Witness for C5 (amended): a two-line marker-free input with no colon
heading parses to the single space-joined paragraph. -/
theorem claim_fallback_amended_witness :
    parseAssistantTextToNodes (chars "hello\nworld")
      = [Block.paragraph (joinSep ' ' (inputLines (chars "hello\nworld")))] :=
  claim_fallback_amended (chars "hello\nworld") (by decide)
    ⟨'h', by decide, by decide⟩ (by decide) (by decide)

/-! ### Filter engine and selection set -/

/-- C6 (counterexample): the claim matches the query against the plain
concatenation of name, brand and description, but the code joins the three
fields with single spaces.  For a product named `"La"` with brand `"Mer"`
and query `"aM"`, the claim's haystack `"lamer"` contains `"am"`, so the
claim predicts the product is kept; the code's haystack `"la mer "` does not
contain `"am"`, and `applyFilters` returns the empty list. -/
theorem claim_filter_counterexample :
    applyFilters
        [⟨chars "La", some (chars "Mer"), chars "skincare", none, chars "img"⟩]
        [] (chars "aM") = [] ∧
    ([(⟨chars "La", some (chars "Mer"), chars "skincare", none,
        chars "img"⟩ : Product)].filter
      (fun p => containsSub (lowerStr (trimStr (chars "aM"))) (specHayOf p)))
      = [⟨chars "La", some (chars "Mer"), chars "skincare", none, chars "img"⟩] := by
  constructor
  · decide
  · decide

/-- C6 (amended): for every catalog, category and query, `applyFilters`
returns exactly the order-preserving filter of the catalog by the
conjunction of: category match (exact equality, skipped when the category is
empty) and case-insensitive substring match of the lower-cased trimmed query
against the *space-separated* concatenation of name, brand (default empty)
and description (default empty) (skipped when the trimmed query is empty);
in particular the result is a subsequence of the catalog. -/
theorem claim_filter_amended (catalog : List Product) (category query : List Char) :
    applyFilters catalog category query
      = catalog.filter (fun p =>
          (category.isEmpty || p.category == category) &&
          ((lowerStr (trimStr query)).isEmpty ||
            containsSub (lowerStr (trimStr query)) (hayOf p))) ∧
    (applyFilters catalog category query).Sublist catalog := by
  have hmain : applyFilters catalog category query
      = catalog.filter (fun p =>
          (category.isEmpty || p.category == category) &&
          ((lowerStr (trimStr query)).isEmpty ||
            containsSub (lowerStr (trimStr query)) (hayOf p))) := by
    unfold applyFilters
    by_cases hcat : category.isEmpty
    · by_cases hq : (lowerStr (trimStr query)).isEmpty
      · simp only [hcat, hq, if_true, Bool.true_or, Bool.true_and]
        rw [List.filter_eq_self.2 (fun p _ => by simp)]
      · simp only [hcat, hq, Bool.false_eq_true, if_true, if_false, Bool.true_or,
          Bool.true_and]
        rfl
    · by_cases hq : (lowerStr (trimStr query)).isEmpty
      · simp only [hcat, hq, Bool.false_eq_true, if_false, if_true]
        apply List.filter_congr
        intro p _
        simp [hcat, hq]
      · simp only [hcat, hq, Bool.false_eq_true, if_false]
        rw [List.filter_filter]
        apply List.filter_congr
        intro p _
        simp only [hcat, hq, Bool.false_or]
        rw [Bool.and_comm]
  exact ⟨hmain, hmain ▸ List.filter_sublist catalog⟩

/-- C7 (counterexample): toggling a present key twice does not return the
selection snapshot to its original state when other entries follow it: the
key is re-inserted at the end.  With snapshot `[(a, pa), (b, pb)]`, toggling
`a` twice yields `[(b, pb), (a, pa)]`: `a` moved from position 0 to
position 1. -/
theorem claim_toggle_counterexample :
    toggleSelected
        (toggleSelected
          [(chars "a", ⟨chars "A", chars "BrA", chars "iA"⟩),
           (chars "b", ⟨chars "B", chars "BrB", chars "iB"⟩)]
          (chars "a") ⟨chars "A", chars "BrA", chars "iA"⟩)
        (chars "a") ⟨chars "A", chars "BrA", chars "iA"⟩
      = [(chars "b", ⟨chars "B", chars "BrB", chars "iB"⟩),
         (chars "a", ⟨chars "A", chars "BrA", chars "iA"⟩)] ∧
    [(chars "b", (⟨chars "B", chars "BrB", chars "iB"⟩ : SelProduct)),
     (chars "a", ⟨chars "A", chars "BrA", chars "iA"⟩)]
      ≠ [(chars "a", ⟨chars "A", chars "BrA", chars "iA"⟩),
         (chars "b", ⟨chars "B", chars "BrB", chars "iB"⟩)] := by
  constructor
  · decide
  · decide

theorem any_key_append_self (sel : List (List Char × SelProduct)) (key : List Char)
    (v : SelProduct) :
    (sel ++ [(key, v)]).any (fun e => e.1 == key) = true := by
  rw [List.any_append]
  simp

theorem any_key_filter_not (sel : List (List Char × SelProduct)) (key : List Char) :
    (sel.filter (fun e => !(e.1 == key))).any (fun e => e.1 == key) = false := by
  rw [Bool.eq_false_iff]
  intro hx
  rw [List.any_eq_true] at hx
  obtain ⟨e, he, hk⟩ := hx
  have := List.of_mem_filter he
  rw [hk] at this
  simp at this

/-- C7 (amended): toggling the same key twice restores the key's
presence/absence; if the key was absent the snapshot is fully restored; if
the key was present, the result is the original snapshot with the key's
entry removed and a fresh entry `(key, v)` appended at the end — so the key
returns to its original position only when it was already last. -/
theorem claim_toggle_amended (sel : List (List Char × SelProduct))
    (key : List Char) (v : SelProduct) :
    ((toggleSelected (toggleSelected sel key v) key v).any (fun e => e.1 == key)
      = sel.any (fun e => e.1 == key)) ∧
    (sel.any (fun e => e.1 == key) = false →
      toggleSelected (toggleSelected sel key v) key v = sel) ∧
    (sel.any (fun e => e.1 == key) = true →
      toggleSelected (toggleSelected sel key v) key v
        = sel.filter (fun e => !(e.1 == key)) ++ [(key, v)]) := by
  have habsent : sel.any (fun e => e.1 == key) = false →
      toggleSelected (toggleSelected sel key v) key v = sel := by
    intro h
    have e1 : toggleSelected sel key v = sel ++ [(key, v)] := by
      unfold toggleSelected
      rw [if_neg (by simp [h])]
    rw [e1]
    unfold toggleSelected
    rw [if_pos (any_key_append_self sel key v), List.filter_append]
    have h1 : sel.filter (fun e => !(e.1 == key)) = sel := by
      apply List.filter_eq_self.2
      intro e he
      have : (e.1 == key) = false := by
        rw [List.any_eq_false] at h
        simpa using h e he
      simp [this]
    rw [h1]
    simp
  have hpresent : sel.any (fun e => e.1 == key) = true →
      toggleSelected (toggleSelected sel key v) key v
        = sel.filter (fun e => !(e.1 == key)) ++ [(key, v)] := by
    intro h
    have e1 : toggleSelected sel key v = sel.filter (fun e => !(e.1 == key)) := by
      unfold toggleSelected
      rw [if_pos h]
    rw [e1]
    unfold toggleSelected
    rw [if_neg (by simp [any_key_filter_not sel key])]
  refine ⟨?_, habsent, hpresent⟩
  cases h : sel.any (fun e => e.1 == key) with
  | false => rw [habsent h]; exact h
  | true => rw [hpresent h, any_key_append_self]

/-- Witness for C7 (amended), present case: in a one-entry snapshot the
double toggle removes and re-appends the entry. -/
theorem claim_toggle_amended_witness :
    toggleSelected
        (toggleSelected [(chars "a", ⟨chars "A", chars "BrA", chars "iA"⟩)]
          (chars "a") ⟨chars "A", chars "BrA", chars "iA"⟩)
        (chars "a") ⟨chars "A", chars "BrA", chars "iA"⟩
      = [(chars "a", (⟨chars "A", chars "BrA", chars "iA"⟩ : SelProduct))].filter
          (fun e => !(e.1 == chars "a"))
        ++ [(chars "a", ⟨chars "A", chars "BrA", chars "iA"⟩)] :=
  (claim_toggle_amended [(chars "a", ⟨chars "A", chars "BrA", chars "iA"⟩)]
    (chars "a") ⟨chars "A", chars "BrA", chars "iA"⟩).2.2 (by decide)

/-! ### Chat flows -/

theorem renderAssist_ne_nil (text : List Char) : renderAssist text ≠ [] := by
  unfold renderAssist
  by_cases h : (parseAssistantTextToNodes text).isEmpty
  · rw [if_pos h]; simp
  · rw [if_neg h]; simpa using h

theorem getLast?_appendAssistantMessage (w : List WindowEntry) (text : List Char) :
    (appendAssistantMessage w text).getLast?
      = some (WindowEntry.assistantEntry (renderAssist text)) := by
  unfold appendAssistantMessage
  rw [List.getLast?_concat]

theorem isEmpty_false_of_ne_nil {l : List Char} (h : l ≠ []) :
    l.isEmpty = false := by
  cases l with
  | nil => exact absurd rfl h
  | cons a b => rfl

/-- C8: for every failing chat request — missing API key, non-success HTTP
status, absent reply field, or a thrown transport error — in either handler
(typed follow-up with non-blank text, or routine generation with a non-empty
selection), the new conversation history is exactly the old history plus the
already-appended user turn (no assistant message appended, nothing removed
or edited, the user turn left unanswered), and the chat window ends with a
rendered non-empty assistant-style notice in place of a reply. -/
theorem claim_error_handling (st : ChatState) (input : List Char) (k : Bool)
    (o : ChatOutcome) (prods : List SelProduct)
    (hfail : k = false ∨ o = ChatOutcome.noContent ∨
      (∃ s b, o = ChatOutcome.httpError s b) ∨
      (∃ m, o = ChatOutcome.transportError m)) :
    (trimStr input ≠ [] →
      (submitFlow st input k o).history
        = st.history ++ [⟨Role.user, trimStr input⟩] ∧
      ∃ bs, (submitFlow st input k o).window.getLast?
          = some (WindowEntry.assistantEntry bs) ∧ bs ≠ []) ∧
    (prods ≠ [] →
      (generateFlow st prods k o).history
        = st.history ++ [⟨Role.user, routinePrompt prods⟩] ∧
      ∃ bs, (generateFlow st prods k o).window.getLast?
          = some (WindowEntry.assistantEntry bs) ∧ bs ≠ []) := by
  constructor
  · intro htext
    have hne : ¬((trimStr input).isEmpty = true) := by
      rw [isEmpty_false_of_ne_nil htext]
      simp
    rcases hfail with hk | ho | ⟨s', b', ho⟩ | ⟨m, ho⟩
    · subst hk
      have heq : submitFlow st input false o
          = ⟨st.history ++ [⟨Role.user, trimStr input⟩],
             appendAssistantMessage (st.window ++ [WindowEntry.userEntry (trimStr input)])
               noKeyNotice⟩ := by
        unfold submitFlow
        rw [if_neg hne]
        rfl
      rw [heq]
      exact ⟨rfl, renderAssist noKeyNotice,
        getLast?_appendAssistantMessage _ _, renderAssist_ne_nil _⟩
    · subst ho
      cases k with
      | false =>
        have heq : submitFlow st input false ChatOutcome.noContent
            = ⟨st.history ++ [⟨Role.user, trimStr input⟩],
               appendAssistantMessage
                 (st.window ++ [WindowEntry.userEntry (trimStr input)]) noKeyNotice⟩ := by
          unfold submitFlow
          rw [if_neg hne]
          rfl
        rw [heq]
        exact ⟨rfl, renderAssist noKeyNotice,
          getLast?_appendAssistantMessage _ _, renderAssist_ne_nil _⟩
      | true =>
        have heq : submitFlow st input true ChatOutcome.noContent
            = ⟨st.history ++ [⟨Role.user, trimStr input⟩],
               appendAssistantMessage
                 (appendAssistantMessage
                   (st.window ++ [WindowEntry.userEntry (trimStr input)]) thinkingNotice)
                 noResponseNotice⟩ := by
          unfold submitFlow
          rw [if_neg hne]
          rfl
        rw [heq]
        exact ⟨rfl, renderAssist noResponseNotice,
          getLast?_appendAssistantMessage _ _, renderAssist_ne_nil _⟩
    · subst ho
      cases k with
      | false =>
        have heq : submitFlow st input false (ChatOutcome.httpError s' b')
            = ⟨st.history ++ [⟨Role.user, trimStr input⟩],
               appendAssistantMessage
                 (st.window ++ [WindowEntry.userEntry (trimStr input)]) noKeyNotice⟩ := by
          unfold submitFlow
          rw [if_neg hne]
          rfl
        rw [heq]
        exact ⟨rfl, renderAssist noKeyNotice,
          getLast?_appendAssistantMessage _ _, renderAssist_ne_nil _⟩
      | true =>
        have heq : submitFlow st input true (ChatOutcome.httpError s' b')
            = ⟨st.history ++ [⟨Role.user, trimStr input⟩],
               appendAssistantMessage
                 (appendAssistantMessage
                   (st.window ++ [WindowEntry.userEntry (trimStr input)]) thinkingNotice)
                 (httpErrorNotice s' b')⟩ := by
          unfold submitFlow
          rw [if_neg hne]
          rfl
        rw [heq]
        exact ⟨rfl, renderAssist (httpErrorNotice s' b'),
          getLast?_appendAssistantMessage _ _, renderAssist_ne_nil _⟩
    · subst ho
      cases k with
      | false =>
        have heq : submitFlow st input false (ChatOutcome.transportError m)
            = ⟨st.history ++ [⟨Role.user, trimStr input⟩],
               appendAssistantMessage
                 (st.window ++ [WindowEntry.userEntry (trimStr input)]) noKeyNotice⟩ := by
          unfold submitFlow
          rw [if_neg hne]
          rfl
        rw [heq]
        exact ⟨rfl, renderAssist noKeyNotice,
          getLast?_appendAssistantMessage _ _, renderAssist_ne_nil _⟩
      | true =>
        have heq : submitFlow st input true (ChatOutcome.transportError m)
            = ⟨st.history ++ [⟨Role.user, trimStr input⟩],
               appendAssistantMessage
                 (appendAssistantMessage
                   (st.window ++ [WindowEntry.userEntry (trimStr input)]) thinkingNotice)
                 (requestFailedNotice m)⟩ := by
          unfold submitFlow
          rw [if_neg hne]
          rfl
        rw [heq]
        exact ⟨rfl, renderAssist (requestFailedNotice m),
          getLast?_appendAssistantMessage _ _, renderAssist_ne_nil _⟩
  · intro hprods
    have hne : ¬(prods.isEmpty = true) := by
      cases prods with
      | nil => exact absurd rfl hprods
      | cons a b => simp
    rcases hfail with hk | ho | ⟨s', b', ho⟩ | ⟨m, ho⟩
    · subst hk
      have heq : generateFlow st prods false o
          = ⟨st.history ++ [⟨Role.user, routinePrompt prods⟩],
             appendAssistantMessage
               (st.window ++ [WindowEntry.userEntry
                 (chars "Generate routine for selected products.")]) noKeyNotice⟩ := by
        unfold generateFlow
        rw [if_neg hne]
        rfl
      rw [heq]
      exact ⟨rfl, renderAssist noKeyNotice,
        getLast?_appendAssistantMessage _ _, renderAssist_ne_nil _⟩
    · subst ho
      cases k with
      | false =>
        have heq : generateFlow st prods false ChatOutcome.noContent
            = ⟨st.history ++ [⟨Role.user, routinePrompt prods⟩],
               appendAssistantMessage
                 (st.window ++ [WindowEntry.userEntry
                   (chars "Generate routine for selected products.")]) noKeyNotice⟩ := by
          unfold generateFlow
          rw [if_neg hne]
          rfl
        rw [heq]
        exact ⟨rfl, renderAssist noKeyNotice,
          getLast?_appendAssistantMessage _ _, renderAssist_ne_nil _⟩
      | true =>
        have heq : generateFlow st prods true ChatOutcome.noContent
            = ⟨st.history ++ [⟨Role.user, routinePrompt prods⟩],
               appendAssistantMessage
                 (appendAssistantMessage
                   (st.window ++ [WindowEntry.userEntry
                     (chars "Generate routine for selected products.")])
                   generatingNotice)
                 noResponseNotice⟩ := by
          unfold generateFlow
          rw [if_neg hne]
          rfl
        rw [heq]
        exact ⟨rfl, renderAssist noResponseNotice,
          getLast?_appendAssistantMessage _ _, renderAssist_ne_nil _⟩
    · subst ho
      cases k with
      | false =>
        have heq : generateFlow st prods false (ChatOutcome.httpError s' b')
            = ⟨st.history ++ [⟨Role.user, routinePrompt prods⟩],
               appendAssistantMessage
                 (st.window ++ [WindowEntry.userEntry
                   (chars "Generate routine for selected products.")]) noKeyNotice⟩ := by
          unfold generateFlow
          rw [if_neg hne]
          rfl
        rw [heq]
        exact ⟨rfl, renderAssist noKeyNotice,
          getLast?_appendAssistantMessage _ _, renderAssist_ne_nil _⟩
      | true =>
        have heq : generateFlow st prods true (ChatOutcome.httpError s' b')
            = ⟨st.history ++ [⟨Role.user, routinePrompt prods⟩],
               appendAssistantMessage
                 (appendAssistantMessage
                   (st.window ++ [WindowEntry.userEntry
                     (chars "Generate routine for selected products.")])
                   generatingNotice)
                 (httpErrorNotice s' b')⟩ := by
          unfold generateFlow
          rw [if_neg hne]
          rfl
        rw [heq]
        exact ⟨rfl, renderAssist (httpErrorNotice s' b'),
          getLast?_appendAssistantMessage _ _, renderAssist_ne_nil _⟩
    · subst ho
      cases k with
      | false =>
        have heq : generateFlow st prods false (ChatOutcome.transportError m)
            = ⟨st.history ++ [⟨Role.user, routinePrompt prods⟩],
               appendAssistantMessage
                 (st.window ++ [WindowEntry.userEntry
                   (chars "Generate routine for selected products.")]) noKeyNotice⟩ := by
          unfold generateFlow
          rw [if_neg hne]
          rfl
        rw [heq]
        exact ⟨rfl, renderAssist noKeyNotice,
          getLast?_appendAssistantMessage _ _, renderAssist_ne_nil _⟩
      | true =>
        have heq : generateFlow st prods true (ChatOutcome.transportError m)
            = ⟨st.history ++ [⟨Role.user, routinePrompt prods⟩],
               appendAssistantMessage
                 (appendAssistantMessage
                   (st.window ++ [WindowEntry.userEntry
                     (chars "Generate routine for selected products.")])
                   generatingNotice)
                 (requestFailedNotice m)⟩ := by
          unfold generateFlow
          rw [if_neg hne]
          rfl
        rw [heq]
        exact ⟨rfl, renderAssist (requestFailedNotice m),
          getLast?_appendAssistantMessage _ _, renderAssist_ne_nil _⟩

/-- Witness for C8 at a concrete failing request: missing API key on a typed
follow-up from the initial conversation. -/
theorem claim_error_handling_witness :
    (submitFlow ⟨initialConversation, []⟩ (chars " hi ") false ChatOutcome.noContent).history
      = initialConversation ++ [⟨Role.user, trimStr (chars " hi ")⟩] ∧
    ∃ bs, (submitFlow ⟨initialConversation, []⟩ (chars " hi ") false
        ChatOutcome.noContent).window.getLast?
      = some (WindowEntry.assistantEntry bs) ∧ bs ≠ [] :=
  (claim_error_handling ⟨initialConversation, []⟩ (chars " hi ") false
    ChatOutcome.noContent [] (Or.inl rfl)).1 (by decide)

/-- C9 (counterexample): a "generate routine" click with an empty selection
appends no user message at all (the guard shows a notice and returns before
touching the history), contradicting "exactly one user message is appended
to the conversation history" for every generate-routine click. -/
theorem claim_chat_append_counterexample :
    (generateFlow ⟨initialConversation, []⟩ [] true
        (ChatOutcome.success (chars "ok"))).history = initialConversation ∧
    initialConversation.length = 1 := by
  constructor
  · rfl
  · rfl

/-- C9 (amended): for a typed follow-up with non-blank text, and for a
"generate routine" click with a non-empty selection, exactly one user
message is appended before the request is issued — the first appended entry
is always the user turn — and on success (with the key present) exactly one
assistant message holding the raw reply text is appended after it; the
rendered window entry for the reply is the parsed form, while the history
stores the reply verbatim. -/
theorem claim_chat_append_amended (st : ChatState) (input : List Char) (k : Bool)
    (o : ChatOutcome) (prods : List SelProduct) (r : List Char) :
    (trimStr input ≠ [] →
      ((o = ChatOutcome.success r ∧ k = true) →
        (submitFlow st input k o).history
          = st.history ++ [⟨Role.user, trimStr input⟩, ⟨Role.assistant, r⟩] ∧
        (submitFlow st input k o).window.getLast?
          = some (WindowEntry.assistantEntry (renderAssist r))) ∧
      (submitFlow st input k o).history.take (st.history.length + 1)
        = st.history ++ [⟨Role.user, trimStr input⟩]) ∧
    (prods ≠ [] →
      ((o = ChatOutcome.success r ∧ k = true) →
        (generateFlow st prods k o).history
          = st.history ++ [⟨Role.user, routinePrompt prods⟩, ⟨Role.assistant, r⟩] ∧
        (generateFlow st prods k o).window.getLast?
          = some (WindowEntry.assistantEntry (renderAssist r))) ∧
      (generateFlow st prods k o).history.take (st.history.length + 1)
        = st.history ++ [⟨Role.user, routinePrompt prods⟩]) := by
  constructor
  · intro htext
    have hne : ¬((trimStr input).isEmpty = true) := by
      rw [isEmpty_false_of_ne_nil htext]
      simp
    constructor
    · rintro ⟨ho, hk⟩
      subst ho; subst hk
      have heq : submitFlow st input true (ChatOutcome.success r)
          = ⟨st.history ++ [⟨Role.user, trimStr input⟩, ⟨Role.assistant, r⟩],
             appendAssistantMessage
               (appendAssistantMessage
                 (st.window ++ [WindowEntry.userEntry (trimStr input)]) thinkingNotice)
               r⟩ := by
        unfold submitFlow
        rw [if_neg hne]
        simp
      rw [heq]
      exact ⟨rfl, getLast?_appendAssistantMessage _ _⟩
    · have hhist : ∃ tail, (submitFlow st input k o).history
          = (st.history ++ [⟨Role.user, trimStr input⟩]) ++ tail := by
        unfold submitFlow
        rw [if_neg hne]
        cases k with
        | false => exact ⟨[], by simp⟩
        | true =>
          cases o with
          | success reply => exact ⟨[⟨Role.assistant, reply⟩], by simp⟩
          | httpError s' b' => exact ⟨[], by simp⟩
          | noContent => exact ⟨[], by simp⟩
          | transportError m => exact ⟨[], by simp⟩
      obtain ⟨tail, htail⟩ := hhist
      rw [htail]
      rw [show st.history.length + 1
          = (st.history ++ [(⟨Role.user, trimStr input⟩ : ChatMessage)]).length by
        simp]
      rw [List.take_left]
  · intro hprods
    have hne : ¬(prods.isEmpty = true) := by
      cases prods with
      | nil => exact absurd rfl hprods
      | cons a b => simp
    constructor
    · rintro ⟨ho, hk⟩
      subst ho; subst hk
      have heq : generateFlow st prods true (ChatOutcome.success r)
          = ⟨st.history ++ [⟨Role.user, routinePrompt prods⟩, ⟨Role.assistant, r⟩],
             appendAssistantMessage
               (appendAssistantMessage
                 (st.window ++ [WindowEntry.userEntry
                   (chars "Generate routine for selected products.")])
                 generatingNotice)
               r⟩ := by
        unfold generateFlow
        rw [if_neg hne]
        simp
      rw [heq]
      exact ⟨rfl, getLast?_appendAssistantMessage _ _⟩
    · have hhist : ∃ tail, (generateFlow st prods k o).history
          = (st.history ++ [⟨Role.user, routinePrompt prods⟩]) ++ tail := by
        unfold generateFlow
        rw [if_neg hne]
        cases k with
        | false => exact ⟨[], by simp⟩
        | true =>
          cases o with
          | success reply => exact ⟨[⟨Role.assistant, reply⟩], by simp⟩
          | httpError s' b' => exact ⟨[], by simp⟩
          | noContent => exact ⟨[], by simp⟩
          | transportError m => exact ⟨[], by simp⟩
      obtain ⟨tail, htail⟩ := hhist
      rw [htail]
      rw [show st.history.length + 1
          = (st.history ++ [(⟨Role.user, routinePrompt prods⟩ : ChatMessage)]).length by
        simp]
      rw [List.take_left]

/-- Witness for C9 (amended) at a concrete successful follow-up. -/
theorem claim_chat_append_amended_witness :
    (submitFlow ⟨initialConversation, []⟩ (chars "hi") true
        (ChatOutcome.success (chars "ok"))).history
      = initialConversation
        ++ [⟨Role.user, trimStr (chars "hi")⟩, ⟨Role.assistant, chars "ok"⟩] :=
  (((claim_chat_append_amended ⟨initialConversation, []⟩ (chars "hi") true
    (ChatOutcome.success (chars "ok")) [] (chars "ok")).1 (by decide)).1
    ⟨rfl, rfl⟩).1

/-! ### Non-empty list blocks -/

/-- A block is well-formed for C10 when, if it is an ordered or unordered
list, it has at least one item. -/
def listItemsNonempty : Block → Prop
  | .orderedList items => items ≠ []
  | .unorderedList items => items ≠ []
  | _ => True

theorem dropWhile_ne_nil_of_exists {f : List Char → Bool} :
    ∀ {ls : List (List Char)}, (∃ l ∈ ls, f l = true) →
      ls.dropWhile (fun l => !f l) ≠ [] := by
  intro ls
  induction ls with
  | nil => rintro ⟨l, hl, -⟩; simp at hl
  | cons x xs ih =>
    rintro ⟨l, hl, hf⟩
    rw [List.dropWhile_cons]
    by_cases hx : f x = true
    · rw [if_neg (by simp [hx])]
      simp
    · rw [if_pos (by simp [Bool.not_eq_true] at hx ⊢; exact hx)]
      apply ih
      rcases List.mem_cons.1 hl with h2 | h2
      · subst h2; exact absurd hf hx
      · exact ⟨l, h2, hf⟩

theorem buildItems_ne_nil {isM : List Char → Bool} {stripM : List Char → List Char}
    {lines : List (List Char)} (h : 1 ≤ (lines.filter isM).length) :
    buildItems isM stripM lines ≠ [] := by
  rw [buildItems_eq_groups]
  have h1 : (buildGroups isM lines).flatten ≠ [] := by
    rw [buildGroups_flatten]
    apply dropWhile_ne_nil_of_exists
    obtain ⟨l, hl⟩ : ∃ l, l ∈ lines.filter isM := by
      cases hx : lines.filter isM with
      | nil => rw [hx] at h; simp at h
      | cons a b => exact ⟨a, hx ▸ List.mem_cons_self a b⟩
    exact ⟨l, List.mem_of_mem_filter hl, List.of_mem_filter hl⟩
  intro hx
  apply h1
  have : buildGroups isM lines = [] := by
    cases hy : buildGroups isM lines with
    | nil => rfl
    | cons a b => rw [hy] at hx; simp at hx
  rw [this]
  rfl

theorem classifyUnit_listItemsNonempty (lines : List (List Char)) :
    listItemsNonempty (classifyUnit lines) := by
  unfold classifyUnit
  split_ifs with h1 h2 h3
  · exact buildItems_ne_nil h1.1
  · exact buildItems_ne_nil h2.1
  · exact buildItems_ne_nil (by omega)
  · trivial

theorem parseLines_listItemsNonempty :
    ∀ (ls : List (List Char)), ∀ b ∈ parseLines ls, listItemsNonempty b := by
  intro ls
  induction ls using parseLines.induct with
  | case1 =>
    intro b hb
    simp only [parseLines, List.mem_singleton] at hb
    subst hb
    exact classifyUnit_listItemsNonempty []
  | case2 l =>
    intro b hb
    simp only [parseLines, List.mem_singleton] at hb
    subst hb
    exact classifyUnit_listItemsNonempty [l]
  | case3 l0 l1 rest hcol ih =>
    intro b hb
    rw [parseLines_cons₂, if_pos hcol] at hb
    rcases List.mem_cons.1 hb with h2 | h2
    · subst h2; trivial
    · exact ih b h2
  | case4 l0 l1 rest hcol =>
    intro b hb
    rw [parseLines_cons₂, if_neg hcol] at hb
    simp only [List.mem_singleton] at hb
    subst hb
    exact classifyUnit_listItemsNonempty _

/-- C10: every OrderedList or UnorderedList block produced by the formatter
has at least one item: a list block is emitted only when some line of the
unit matched the marker pattern, and each matching line starts an item. -/
theorem claim_lists_nonempty (t : List Char) :
    ∀ b ∈ parseAssistantTextToNodes t, listItemsNonempty b := by
  intro b hb
  rw [parse_eq_parseFast] at hb
  unfold parseFast at hb
  obtain ⟨para, hpara, hb2⟩ := List.mem_flatMap.1 hb
  exact parseLines_listItemsNonempty (linesOf para) b hb2

/-- Witness for C10: the single ordered-list block produced from `"1. a"` has
a (non-empty) item list. -/
theorem claim_lists_nonempty_witness :
    listItemsNonempty (Block.orderedList [chars "a"]) :=
  claim_lists_nonempty (chars "1. a") (Block.orderedList [chars "a"])
    (by rw [parse_eq_parseEval]; decide)
